import Mathlib

/-
Verification of the CSP solving core of the meeting-scheduler repository
(source file: src/csp_solver.py).

Embedding conventions:
- Python `datetime` values are opaque to the solver (only the constraint
  callbacks inspect them), so they are embedded as `Val := Nat`.
- Python `set[datetime]` values are embedded as `List Val`; set iteration
  order is unspecified in Python, so the list order is one fixed
  refinement of that nondeterminism.  Sets contain no duplicates, which
  appears as `List.Nodup` hypotheses where a proof needs it.
- In-place mutation of the list of domains is embedded as functional
  update (`modify_at`), and the backtracker's possible `IndexError`
  (indexing `domains[len(assignment)]` out of range) as the
  `Except.error ()` value of an `Except Unit _` result.
- The worklist `set` of arcs in AC-3 is embedded as a `List Arc`
  processed from the head; `set.add` is embedded as appending (possible
  duplicates are harmless: revising an arc that is already consistent
  changes nothing and enqueues nothing).
- The constraint class hierarchy lives in `date_constraints.py`, which
  is outside src/; its interface is modelled from the spec (section 6).
-/

namespace CSP

/-- Values assigned to meetings (Python `datetime`); opaque to the solver. -/
abbrev Val := Nat

/-- Modelled from the spec: the external `DateConstraint` collaborator
(src/ only contains its callers).  A constraint is unary (one variable
index and a check on one value) or binary (two variable indices and a
check on an ordered pair of values).  Spec section 6 lists the interface:
`arity`, `L_VAL`, `R_VAL`, `is_satisfied_by_values`,
`is_satisfied_by_assignment`, `get_reverse`. -/
inductive DateConstraint where
  | unary (lval : Nat) (sat : Val → Bool)
  | binary (lval : Nat) (rval : Nat) (sat : Val → Val → Bool)

/-- Modelled from the spec: `arity() -> 1 | 2`. -/
def DateConstraint.arity : DateConstraint → Nat
  | .unary _ _ => 1
  | .binary _ _ _ => 2

/-- Modelled from the spec: the left variable index `L_VAL`. -/
def DateConstraint.L_VAL : DateConstraint → Nat
  | .unary l _ => l
  | .binary l _ _ => l

/-- Modelled from the spec: `R_VAL` is an `int` (a variable index) exactly
for binary constraints; a unary constraint has no int `R_VAL`, which is
modelled as `none`. -/
def DateConstraint.R_VAL : DateConstraint → Option Nat
  | .unary _ _ => none
  | .binary _ r _ => some r

/-- Modelled from the spec: `is_satisfied_by_values` on a single value
(call sites guard `arity() == 1`; the binary case is never reached). -/
def DateConstraint.is_satisfied_by_values1 : DateConstraint → Val → Bool
  | .unary _ sat, v => sat v
  | .binary _ _ _, _ => true

/-- Modelled from the spec: `is_satisfied_by_values` on an ordered pair of
values (call sites guard `arity() == 2`; the unary case is never reached). -/
def DateConstraint.is_satisfied_by_values2 : DateConstraint → Val → Val → Bool
  | .unary _ sat, v, _ => sat v
  | .binary _ _ sat, v, w => sat v w

/-- Modelled from the spec: `is_satisfied_by_assignment` evaluates the
constraint against a possibly partial assignment, treating any variable
index beyond the assignment's current length as trivially satisfied. -/
def DateConstraint.is_satisfied_by_assignment : DateConstraint → List Val → Bool
  | .unary l sat, a =>
    match a[l]? with
    | some v => sat v
    | none => true
  | .binary l r sat, a =>
    match a[l]?, a[r]? with
    | some v, some w => sat v w
    | _, _ => true

/-- Modelled from the spec: `get_reverse()` (binary only) returns an
equivalent constraint with `L_VAL`/`R_VAL` swapped and the satisfaction
check's argument order swapped accordingly.  The solver only ever calls
it under an `arity() == 2` guard; the unary case is arbitrary. -/
def DateConstraint.get_reverse : DateConstraint → DateConstraint
  | .binary l r sat => .binary r l (fun x y => sat y x)
  | .unary l sat => .unary l sat

/-- Functional update of the i-th element of a list; embeds an in-place
assignment to one cell of a Python list (out-of-range indices are never
used by in-range runs). -/
def modify_at {α : Type} (f : α → α) : Nat → List α → List α
  | _, [] => []
  | 0, d :: rest => f d :: rest
  | n+1, d :: rest => d :: modify_at f n rest

theorem length_modify_at {α : Type} (f : α → α) : ∀ (i : Nat) (l : List α),
    (modify_at f i l).length = l.length := by
  intro i l
  induction l generalizing i with
  | nil => cases i <;> rfl
  | cons d rest ih => cases i with
    | zero => rfl
    | succ n => simpa [modify_at] using ih n

theorem getD_modify_at_ne {α : Type} (f : α → α) (dflt : α) :
    ∀ (i j : Nat) (l : List α), j ≠ i →
    (modify_at f i l).getD j dflt = l.getD j dflt := by
  intro i j l
  induction l generalizing i j with
  | nil => intro _; cases i <;> rfl
  | cons d rest ih =>
    intro hne
    cases i with
    | zero =>
      cases j with
      | zero => exact absurd rfl hne
      | succ m => simp [modify_at]
    | succ n =>
      cases j with
      | zero => simp [modify_at]
      | succ m =>
        simp only [modify_at, List.getD_cons_succ]
        exact ih n m (fun h => hne (by omega))

theorem getD_modify_at_self {α : Type} (f : α → α) (dflt : α) :
    ∀ (i : Nat) (l : List α), i < l.length →
    (modify_at f i l).getD i dflt = f (l.getD i dflt) := by
  intro i l
  induction l generalizing i with
  | nil => intro h; simp at h
  | cons d rest ih =>
    intro h
    cases i with
    | zero => simp [modify_at]
    | succ n =>
      simp only [modify_at, List.getD_cons_succ]
      exact ih n (by simpa using h)

-- CSP Filtering: Node Consistency (src/csp_solver.py, node_consistency)
-- ---------------------------------------------------------------------------

/-- Inner loop of `node_consistency`: walk `domain_copy` (the snapshot
`list(domain)` taken by the source) and remove from the live `domain` any
date for which some unary constraint with `L_VAL == index` fails
(`find?` embeds the inner `for ... break` loop). -/
def prune_domain (index : Nat) : List Val → List Val → List DateConstraint → List Val
  | [], domain, _ => domain
  | date :: rest, domain, unary_constraints =>
    match unary_constraints.find?
        (fun uc => uc.L_VAL == index && !uc.is_satisfied_by_values1 date) with
    | some _ => prune_domain index rest (domain.erase date) unary_constraints
    | none => prune_domain index rest domain unary_constraints

/-- Outer loop of `node_consistency`: visit each domain with its index. -/
def nc_loop : List (List Val) → List DateConstraint → Nat → List (List Val)
  | [], _, _ => []
  | domain :: rest, unary_constraints, index =>
    prune_domain index domain domain unary_constraints ::
      nc_loop rest unary_constraints (index + 1)

/-- Embeds `node_consistency(domains, constraints)` from src/csp_solver.py:
collect the unary constraints, then prune every domain against the unary
constraints matching its index.  The Python function mutates `domains` in
place and returns `None`; here the updated list of domains is returned. -/
def node_consistency (domains : List (List Val)) (constraints : List DateConstraint) :
    List (List Val) :=
  let unary_constraints := constraints.filter (fun c => c.arity == 1)
  nc_loop domains unary_constraints 0

theorem length_nc_loop : ∀ (domains : List (List Val)) ucs k,
    (nc_loop domains ucs k).length = domains.length := by
  intro domains
  induction domains with
  | nil => intro ucs k; rfl
  | cons d rest ih => intro ucs k; simpa [nc_loop] using ih ucs (k+1)

theorem length_node_consistency (domains : List (List Val)) (cs : List DateConstraint) :
    (node_consistency domains cs).length = domains.length :=
  length_nc_loop domains _ 0

theorem prune_domain_of_nil_dom (index : Nat) :
    ∀ (copy : List Val) ucs, prune_domain index copy [] ucs = [] := by
  intro copy
  induction copy with
  | nil => intro ucs; rfl
  | cons d rest ih =>
    intro ucs
    unfold prune_domain
    cases h : ucs.find? (fun uc => uc.L_VAL == index && !uc.is_satisfied_by_values1 d) with
    | some uc => simpa [List.erase] using ih ucs
    | none => exact ih ucs

theorem nc_loop_getD : ∀ (domains : List (List Val)) ucs k i,
    (nc_loop domains ucs k).getD i [] =
      prune_domain (k + i) (domains.getD i []) (domains.getD i []) ucs := by
  intro domains
  induction domains with
  | nil =>
    intro ucs k i
    simp [nc_loop, List.getD]
    exact (prune_domain_of_nil_dom (k+i) [] ucs).symm
  | cons d rest ih =>
    intro ucs k i
    cases i with
    | zero => simp [nc_loop]
    | succ m =>
      simp only [nc_loop, List.getD_cons_succ]
      rw [ih ucs (k+1) m]
      congr 1
      omega

theorem prune_domain_sublist (index : Nat) :
    ∀ (copy dom : List Val) ucs, (prune_domain index copy dom ucs).Sublist dom := by
  intro copy
  induction copy with
  | nil => intro dom ucs; exact List.Sublist.refl dom
  | cons d rest ih =>
    intro dom ucs
    unfold prune_domain
    cases h : ucs.find? (fun uc => uc.L_VAL == index && !uc.is_satisfied_by_values1 d) with
    | some uc => exact (ih (dom.erase d) ucs).trans (List.erase_sublist d dom)
    | none => exact ih dom ucs

/-- Boolean form of "some unary constraint with `L_VAL == index` rejects
`v`", exactly the test performed by the inner loop of `node_consistency`. -/
def fails_unary (ucs : List DateConstraint) (index : Nat) (v : Val) : Bool :=
  (ucs.find? (fun uc => uc.L_VAL == index && !uc.is_satisfied_by_values1 v)).isSome

theorem fails_unary_eq_false_iff (ucs : List DateConstraint) (index : Nat) (v : Val) :
    fails_unary ucs index v = false ↔
      ∀ uc ∈ ucs, uc.L_VAL = index → uc.is_satisfied_by_values1 v = true := by
  unfold fails_unary
  constructor
  · intro h uc hmem hl
    cases hfind : ucs.find? (fun uc => uc.L_VAL == index && !uc.is_satisfied_by_values1 v) with
    | some uc0 => rw [hfind] at h; simp at h
    | none =>
      have := List.find?_eq_none.mp hfind uc hmem
      simp only [Bool.and_eq_true, beq_iff_eq, Bool.not_eq_true'] at this
      by_contra hsat
      exact this ⟨hl, by simpa using hsat⟩
  · intro h
    cases hfind : ucs.find? (fun uc => uc.L_VAL == index && !uc.is_satisfied_by_values1 v) with
    | none => rfl
    | some uc0 =>
      have hp := List.find?_some hfind
      have hm := List.mem_of_find?_eq_some hfind
      simp only [Bool.and_eq_true, beq_iff_eq, Bool.not_eq_true'] at hp
      have := h uc0 hm hp.1
      rw [this] at hp
      exact absurd hp.2 (by simp)

theorem prune_domain_mem (index : Nat) (v : Val) :
    ∀ (copy dom : List Val) ucs, dom.Nodup →
    (v ∈ prune_domain index copy dom ucs ↔
      v ∈ dom ∧ (v ∈ copy → fails_unary ucs index v = false)) := by
  intro copy
  induction copy with
  | nil =>
    intro dom ucs hnd
    simp [prune_domain]
  | cons d rest ih =>
    intro dom ucs hnd
    unfold prune_domain
    cases hfind : ucs.find? (fun uc => uc.L_VAL == index && !uc.is_satisfied_by_values1 d) with
    | some uc0 =>
      rw [ih (dom.erase d) ucs (hnd.erase d)]
      rw [hnd.mem_erase_iff]
      constructor
      · rintro ⟨⟨hvd, hvdom⟩, hrest⟩
        refine ⟨hvdom, ?_⟩
        intro hv
        rcases List.mem_cons.mp hv with hv | hv
        · exact absurd hv hvd
        · exact hrest hv
      · rintro ⟨hvdom, hcond⟩
        by_cases hvd : v = d
        · subst hvd
          have : fails_unary ucs index v = false := hcond (List.mem_cons_self v rest)
          unfold fails_unary at this
          rw [hfind] at this
          simp at this
        · exact ⟨⟨hvd, hvdom⟩, fun hv => hcond (List.mem_cons_of_mem d hv)⟩
    | none =>
      rw [ih dom ucs hnd]
      constructor
      · rintro ⟨hvdom, hrest⟩
        refine ⟨hvdom, ?_⟩
        intro hv
        rcases List.mem_cons.mp hv with hv | hv
        · subst hv
          unfold fails_unary
          rw [hfind]
          rfl
        · exact hrest hv
      · rintro ⟨hvdom, hcond⟩
        exact ⟨hvdom, fun hv => hcond (List.mem_cons_of_mem d hv)⟩

theorem prune_domain_keep (index : Nat) (v : Val)
    (hok : ∀ uc ∈ ucs, uc.L_VAL = index → uc.is_satisfied_by_values1 v = true) :
    ∀ (copy dom : List Val), v ∈ dom → v ∈ prune_domain index copy dom ucs := by
  intro copy
  induction copy with
  | nil => intro dom hv; exact hv
  | cons d rest ih =>
    intro dom hv
    unfold prune_domain
    cases hfind : ucs.find? (fun uc => uc.L_VAL == index && !uc.is_satisfied_by_values1 d) with
    | some uc0 =>
      refine ih (dom.erase d) ?_
      have hp := List.find?_some hfind
      have hm := List.mem_of_find?_eq_some hfind
      simp only [Bool.and_eq_true, beq_iff_eq, Bool.not_eq_true'] at hp
      have hvd : v ≠ d := by
        intro heq
        subst heq
        rw [hok uc0 hm hp.1] at hp
        exact absurd hp.2 (by simp)
      exact (List.mem_erase_of_ne hvd).mpr hv
    | none => exact ih dom hv

-- CSP Filtering: Arc Consistency (src/csp_solver.py, Arc / arc_consistency)
-- ---------------------------------------------------------------------------

/-- Embeds the helper `Arc` class: a directed `(TAIL -> HEAD)` pair for a
given binary `CONSTRAINT`, with `TAIL = CONSTRAINT.L_VAL` and
`HEAD = CONSTRAINT.R_VAL`. -/
structure Arc where
  CONSTRAINT : DateConstraint
  TAIL : Nat
  HEAD : Nat

/-- Embeds `Arc.__init__`: sets `TAIL` to the constraint's `L_VAL`; if the
constraint's `R_VAL` is an int (the constraint is binary) sets `HEAD` to
it, otherwise raises `ValueError` (modelled as `Except.error` with the
source's message). -/
def Arc.ofConstraint (constraint : DateConstraint) : Except String Arc :=
  match constraint.R_VAL with
  | some r => Except.ok { CONSTRAINT := constraint, TAIL := constraint.L_VAL, HEAD := r }
  | none => Except.error "[X] Cannot create Arc from Unary Constraint"

/-- Embeds the arc-set construction in `arc_consistency` (lines 257-261):
for every binary constraint add its forward arc and the arc of its
reversed constraint.  The source stores the arcs in a `set`; a list keeps
both arcs of each constraint in a fixed order (duplicates cannot arise
from distinct entries because a list keeps them harmlessly). -/
def binary_arcs : List DateConstraint → List Arc
  | [] => []
  | DateConstraint.unary _ _ :: rest => binary_arcs rest
  | DateConstraint.binary l r sat :: rest =>
    { CONSTRAINT := DateConstraint.binary l r sat, TAIL := l, HEAD := r } ::
    { CONSTRAINT := (DateConstraint.binary l r sat).get_reverse, TAIL := r, HEAD := l } ::
    binary_arcs rest

/-- Inner loop of `remove_inconsistent_values`: walk the snapshot of the
tail domain; a `tail_date` with no supporting `head_date` in the (current)
head domain is erased from the tail domain and the `removed` flag is set. -/
def remove_values (arc : Arc) :
    List Val → List (List Val) → Bool → List (List Val) × Bool
  | [], domains, removed => (domains, removed)
  | tail_date :: rest, domains, removed =>
    if (domains.getD arc.HEAD []).any
        (fun head_date => arc.CONSTRAINT.is_satisfied_by_values2 tail_date head_date) then
      remove_values arc rest domains removed
    else
      remove_values arc rest (modify_at (fun d => d.erase tail_date) arc.TAIL domains) true

/-- Embeds `remove_inconsistent_values(domains, arc)`: iterates over a copy
of the tail domain, erasing every tail value with no support in the head
domain; returns the updated domains and whether anything was removed. -/
def remove_inconsistent_values (domains : List (List Val)) (arc : Arc) :
    List (List Val) × Bool :=
  remove_values arc (domains.getD arc.TAIL []) domains false

/-- Total number of candidate values over all domains; the termination
measure component for the AC-3 worklist loop. -/
def total_size (domains : List (List Val)) : Nat :=
  (domains.map List.length).sum

theorem total_size_modify_at (f : List Val → List Val) :
    ∀ (i : Nat) (l : List (List Val)), i < l.length →
    total_size (modify_at f i l) + (l.getD i []).length
      = total_size l + (f (l.getD i [])).length := by
  intro i l
  induction l generalizing i with
  | nil => intro h; simp at h
  | cons d rest ih =>
    intro h
    cases i with
    | zero => simp [modify_at, total_size]; omega
    | succ n =>
      simp only [modify_at, total_size, List.map_cons, List.sum_cons, List.getD_cons_succ]
      have := ih n (by simpa using h)
      simp only [total_size] at this
      omega

theorem remove_values_length (arc : Arc) : ∀ copy domains removed,
    ((remove_values arc copy domains removed).1).length = domains.length := by
  intro copy
  induction copy with
  | nil => intro domains removed; rfl
  | cons d rest ih =>
    intro domains removed
    unfold remove_values
    by_cases h : (domains.getD arc.HEAD []).any
        (fun head_date => arc.CONSTRAINT.is_satisfied_by_values2 d head_date) = true
    · rw [if_pos h]; exact ih domains removed
    · rw [if_neg h]
      rw [ih (modify_at (fun dl => dl.erase d) arc.TAIL domains) true]
      exact length_modify_at _ arc.TAIL domains

theorem remove_values_getD_ne (arc : Arc) (j : Nat) (hj : j ≠ arc.TAIL) :
    ∀ copy domains removed,
    ((remove_values arc copy domains removed).1).getD j [] = domains.getD j [] := by
  intro copy
  induction copy with
  | nil => intro domains removed; rfl
  | cons d rest ih =>
    intro domains removed
    unfold remove_values
    by_cases h : (domains.getD arc.HEAD []).any
        (fun head_date => arc.CONSTRAINT.is_satisfied_by_values2 d head_date) = true
    · rw [if_pos h]; exact ih domains removed
    · rw [if_neg h]
      rw [ih (modify_at (fun dl => dl.erase d) arc.TAIL domains) true]
      exact getD_modify_at_ne _ _ arc.TAIL j domains hj

theorem remove_values_getD_sublist (arc : Arc) (j : Nat) :
    ∀ copy domains removed,
    (((remove_values arc copy domains removed).1).getD j []).Sublist (domains.getD j []) := by
  intro copy
  induction copy with
  | nil => intro domains removed; exact List.Sublist.refl _
  | cons d rest ih =>
    intro domains removed
    unfold remove_values
    by_cases h : (domains.getD arc.HEAD []).any
        (fun head_date => arc.CONSTRAINT.is_satisfied_by_values2 d head_date) = true
    · rw [if_pos h]; exact ih domains removed
    · rw [if_neg h]
      refine (ih (modify_at (fun dl => dl.erase d) arc.TAIL domains) true).trans ?_
      by_cases hjt : j = arc.TAIL
      · rw [hjt]
        by_cases hlt : arc.TAIL < domains.length
        · rw [getD_modify_at_self _ _ arc.TAIL domains hlt]
          exact List.erase_sublist d _
        · rw [List.getD_eq_default _ _ (show (modify_at (fun dl => dl.erase d) arc.TAIL domains).length ≤ arc.TAIL by rw [length_modify_at]; omega)]
          exact List.nil_sublist _
      · rw [getD_modify_at_ne _ _ arc.TAIL j domains hjt]

theorem sublist_erase_of_cons_sublist {d : Val} {rest l : List Val}
    (h : (d :: rest).Sublist l) : rest.Sublist (l.erase d) := by
  have h2 := List.Sublist.erase d h
  rwa [List.erase_cons_head] at h2

theorem mem_getD_lt {domains : List (List Val)} {i : Nat} {v : Val}
    (h : v ∈ domains.getD i []) : i < domains.length := by
  by_contra hge
  rw [List.getD_eq_default _ _ (by omega)] at h
  exact absurd h (List.not_mem_nil v)

theorem remove_values_size_le (arc : Arc) : ∀ copy domains removed,
    total_size ((remove_values arc copy domains removed).1) ≤ total_size domains := by
  intro copy
  induction copy with
  | nil => intro domains removed; exact Nat.le_refl _
  | cons d rest ih =>
    intro domains removed
    unfold remove_values
    by_cases h : (domains.getD arc.HEAD []).any
        (fun head_date => arc.CONSTRAINT.is_satisfied_by_values2 d head_date) = true
    · rw [if_pos h]; exact ih domains removed
    · rw [if_neg h]
      refine (ih _ true).trans ?_
      by_cases hlt : arc.TAIL < domains.length
      · have := total_size_modify_at (fun dl => dl.erase d) arc.TAIL domains hlt
        simp only [] at this
        have hle : ((domains.getD arc.TAIL []).erase d).length ≤ (domains.getD arc.TAIL []).length :=
          List.Sublist.length_le (List.erase_sublist d _)
        omega
      · have : modify_at (fun dl => dl.erase d) arc.TAIL domains = domains := by
          clear ih h
          revert hlt
          generalize arc.TAIL = i
          intro hlt
          induction domains generalizing i with
          | nil => cases i <;> rfl
          | cons hd tl ihd =>
            cases i with
            | zero => simp at hlt
            | succ n =>
              simp only [modify_at]
              rw [ihd n (by simp at hlt ⊢; omega)]
        rw [this]

theorem remove_values_flag_true (arc : Arc) : ∀ copy domains,
    (remove_values arc copy domains true).2 = true := by
  intro copy
  induction copy with
  | nil => intro domains; rfl
  | cons d rest ih =>
    intro domains
    unfold remove_values
    by_cases h : (domains.getD arc.HEAD []).any
        (fun head_date => arc.CONSTRAINT.is_satisfied_by_values2 d head_date) = true
    · rw [if_pos h]; exact ih domains
    · rw [if_neg h]; exact ih _

theorem remove_values_of_flag_false (arc : Arc) : ∀ copy domains,
    (remove_values arc copy domains false).2 = false →
    (remove_values arc copy domains false).1 = domains := by
  intro copy
  induction copy with
  | nil => intro domains _; rfl
  | cons d rest ih =>
    intro domains hfl
    unfold remove_values at hfl ⊢
    by_cases h : (domains.getD arc.HEAD []).any
        (fun head_date => arc.CONSTRAINT.is_satisfied_by_values2 d head_date) = true
    · rw [if_pos h] at hfl ⊢; exact ih domains hfl
    · rw [if_neg h] at hfl
      rw [remove_values_flag_true arc rest _] at hfl
      exact absurd hfl (by simp)

theorem remove_values_false_supported (arc : Arc) : ∀ copy domains,
    (remove_values arc copy domains false).2 = false →
    ∀ v ∈ copy, ∃ w ∈ domains.getD arc.HEAD [],
      arc.CONSTRAINT.is_satisfied_by_values2 v w = true := by
  intro copy
  induction copy with
  | nil => intro domains _ v hv; exact absurd hv (List.not_mem_nil v)
  | cons d rest ih =>
    intro domains hfl v hv
    unfold remove_values at hfl
    by_cases h : (domains.getD arc.HEAD []).any
        (fun head_date => arc.CONSTRAINT.is_satisfied_by_values2 d head_date) = true
    · rw [if_pos h] at hfl
      rcases List.mem_cons.mp hv with hv | hv
      · subst hv
        exact List.any_eq_true.mp h
      · exact ih domains hfl v hv
    · rw [if_neg h] at hfl
      rw [remove_values_flag_true arc rest _] at hfl
      exact absurd hfl (by simp)

theorem remove_values_noop (arc : Arc) : ∀ copy domains removed,
    (∀ v ∈ copy, ∃ w ∈ domains.getD arc.HEAD [],
      arc.CONSTRAINT.is_satisfied_by_values2 v w = true) →
    remove_values arc copy domains removed = (domains, removed) := by
  intro copy
  induction copy with
  | nil => intro domains removed _; rfl
  | cons d rest ih =>
    intro domains removed hsup
    unfold remove_values
    have h : (domains.getD arc.HEAD []).any
        (fun head_date => arc.CONSTRAINT.is_satisfied_by_values2 d head_date) = true := by
      rcases hsup d (List.mem_cons_self d rest) with ⟨w, hw, hsat⟩
      exact List.any_eq_true.mpr ⟨w, hw, hsat⟩
    rw [if_pos h]
    exact ih domains removed (fun v hv => hsup v (List.mem_cons_of_mem d hv))

theorem remove_values_size_lt (arc : Arc) : ∀ copy domains,
    copy.Sublist (domains.getD arc.TAIL []) →
    (remove_values arc copy domains false).2 = true →
    total_size ((remove_values arc copy domains false).1) < total_size domains := by
  intro copy
  induction copy with
  | nil => intro domains _ hfl; exact absurd hfl (by simp [remove_values])
  | cons d rest ih =>
    intro domains hsub hfl
    unfold remove_values at hfl ⊢
    by_cases h : (domains.getD arc.HEAD []).any
        (fun head_date => arc.CONSTRAINT.is_satisfied_by_values2 d head_date) = true
    · rw [if_pos h] at hfl ⊢
      exact ih domains ((List.sublist_cons_self d rest).trans hsub) hfl
    · rw [if_neg h] at hfl ⊢
      have hdm : d ∈ domains.getD arc.TAIL [] :=
        List.Sublist.mem (List.mem_cons_self d rest) hsub
      have hlt : arc.TAIL < domains.length := mem_getD_lt hdm
      have hms := total_size_modify_at (fun dl => dl.erase d) arc.TAIL domains hlt
      simp only [] at hms
      have herase : ((domains.getD arc.TAIL []).erase d).length
          = (domains.getD arc.TAIL []).length - 1 := List.length_erase_of_mem hdm
      have hpos : 0 < (domains.getD arc.TAIL []).length := List.length_pos_of_mem hdm
      have hsize : total_size (modify_at (fun dl => dl.erase d) arc.TAIL domains)
          < total_size domains := by omega
      calc total_size ((remove_values arc rest
              (modify_at (fun dl => dl.erase d) arc.TAIL domains) true).1)
          ≤ total_size (modify_at (fun dl => dl.erase d) arc.TAIL domains) :=
            remove_values_size_le arc rest _ true
        _ < total_size domains := hsize

theorem remove_values_support (arc : Arc) (hth : arc.TAIL ≠ arc.HEAD) (v : Val) :
    ∀ copy domains removed,
    copy.Sublist (domains.getD arc.TAIL []) →
    (domains.getD arc.TAIL []).Nodup →
    v ∈ ((remove_values arc copy domains removed).1).getD arc.TAIL [] →
    v ∉ copy ∨ ∃ w ∈ domains.getD arc.HEAD [],
      arc.CONSTRAINT.is_satisfied_by_values2 v w = true := by
  intro copy
  induction copy with
  | nil =>
    intro domains removed _ _ _
    exact Or.inl (List.not_mem_nil v)
  | cons d rest ih =>
    intro domains removed hsub hnd hv
    unfold remove_values at hv
    by_cases h : (domains.getD arc.HEAD []).any
        (fun head_date => arc.CONSTRAINT.is_satisfied_by_values2 d head_date) = true
    · rw [if_pos h] at hv
      rcases ih domains removed ((List.sublist_cons_self d rest).trans hsub) hnd hv with hl | hr
      · by_cases hvd : v = d
        · subst hvd
          rcases List.any_eq_true.mp h with ⟨w, hw, hsat⟩
          exact Or.inr ⟨w, hw, hsat⟩
        · refine Or.inl ?_
          intro hmem
          rcases List.mem_cons.mp hmem with hmem | hmem
          · exact hvd hmem
          · exact hl hmem
      · exact Or.inr hr
    · rw [if_neg h] at hv
      have hdm : d ∈ domains.getD arc.TAIL [] :=
        List.Sublist.mem (List.mem_cons_self d rest) hsub
      have hlt : arc.TAIL < domains.length := mem_getD_lt hdm
      have hget : (modify_at (fun dl => dl.erase d) arc.TAIL domains).getD arc.TAIL []
          = (domains.getD arc.TAIL []).erase d := by
        rw [getD_modify_at_self _ _ arc.TAIL domains hlt]
      have hgethead : (modify_at (fun dl => dl.erase d) arc.TAIL domains).getD arc.HEAD []
          = domains.getD arc.HEAD [] :=
        getD_modify_at_ne _ _ arc.TAIL arc.HEAD domains (fun hh => hth hh.symm)
      have hsub2 : rest.Sublist ((modify_at (fun dl => dl.erase d) arc.TAIL domains).getD
          arc.TAIL []) := by
        rw [hget]; exact sublist_erase_of_cons_sublist hsub
      have hnd2 : (((modify_at (fun dl => dl.erase d) arc.TAIL domains).getD
          arc.TAIL [])).Nodup := by
        rw [hget]; exact hnd.erase d
      rcases ih _ true hsub2 hnd2 hv with hl | hr
      · have hvmem : v ∈ (modify_at (fun dl => dl.erase d) arc.TAIL domains).getD
            arc.TAIL [] :=
          List.Sublist.mem hv (remove_values_getD_sublist arc arc.TAIL rest _ true)
        rw [hget] at hvmem
        have hvd : v ≠ d := (hnd.mem_erase_iff.mp hvmem).1
        refine Or.inl ?_
        intro hmem
        rcases List.mem_cons.mp hmem with hmem | hmem
        · exact hvd hmem
        · exact hl hmem
      · rw [hgethead] at hr
        exact Or.inr hr

theorem remove_values_protect (arc : Arc) (vt vh : Val)
    (hsat : arc.CONSTRAINT.is_satisfied_by_values2 vt vh = true)
    (heq : arc.TAIL = arc.HEAD → vt = vh) :
    ∀ copy domains removed,
    vt ∈ domains.getD arc.TAIL [] →
    vh ∈ domains.getD arc.HEAD [] →
    vt ∈ ((remove_values arc copy domains removed).1).getD arc.TAIL [] ∧
    vh ∈ ((remove_values arc copy domains removed).1).getD arc.HEAD [] := by
  intro copy
  induction copy with
  | nil => intro domains removed hvt hvh; exact ⟨hvt, hvh⟩
  | cons d rest ih =>
    intro domains removed hvt hvh
    unfold remove_values
    by_cases h : (domains.getD arc.HEAD []).any
        (fun head_date => arc.CONSTRAINT.is_satisfied_by_values2 d head_date) = true
    · rw [if_pos h]
      exact ih domains removed hvt hvh
    · rw [if_neg h]
      have hdvt : d ≠ vt := by
        intro hdv
        subst hdv
        exact h (List.any_eq_true.mpr ⟨vh, hvh, hsat⟩)
      have hlt : arc.TAIL < domains.length := mem_getD_lt hvt
      have hget : (modify_at (fun dl => dl.erase d) arc.TAIL domains).getD arc.TAIL []
          = (domains.getD arc.TAIL []).erase d := by
        rw [getD_modify_at_self _ _ arc.TAIL domains hlt]
      have hvt2 : vt ∈ (modify_at (fun dl => dl.erase d) arc.TAIL domains).getD
          arc.TAIL [] := by
        rw [hget]
        exact (List.mem_erase_of_ne (fun hx => hdvt hx.symm)).mpr hvt
      have hvh2 : vh ∈ (modify_at (fun dl => dl.erase d) arc.TAIL domains).getD
          arc.HEAD [] := by
        by_cases hth : arc.TAIL = arc.HEAD
        · have hv : vt = vh := heq hth
          rw [← hth, hget, ← hv]
          exact (List.mem_erase_of_ne (fun hx => hdvt hx.symm)).mpr hvt
        · rw [getD_modify_at_ne _ _ arc.TAIL arc.HEAD domains (fun hh => hth hh.symm)]
          exact hvh
      exact ih _ true hvt2 hvh2

-- The AC-3 worklist loop (src/csp_solver.py, arc_consistency lines 263-272)
-- ---------------------------------------------------------------------------

/-- Embeds the AC-3 worklist loop of `arc_consistency`: pop an arc, revise
it with `remove_inconsistent_values`, and if the tail domain changed,
re-enqueue every original arc whose `HEAD` equals the popped arc's `TAIL`.
Termination: the measure `total_size * (number of original arcs + 1) +
worklist length` drops on every iteration, because a re-enqueue happens
only when some finite domain strictly shrank. -/
def ac3_loop (domains : List (List Val)) (arcs original_arcs : List Arc) :
    List (List Val) :=
  match arcs with
  | [] => domains
  | arc :: rest =>
    if h : (remove_inconsistent_values domains arc).2 = true then
      ac3_loop (remove_inconsistent_values domains arc).1
        (rest ++ original_arcs.filter (fun original_arc => original_arc.HEAD == arc.TAIL))
        original_arcs
    else
      ac3_loop (remove_inconsistent_values domains arc).1 rest original_arcs
termination_by total_size domains * (original_arcs.length + 1) + arcs.length
decreasing_by
  · have hlt : total_size (remove_inconsistent_values domains arc).1 < total_size domains := by
      unfold remove_inconsistent_values at h ⊢
      exact remove_values_size_lt arc _ domains (List.Sublist.refl _) h
    have hfl : (original_arcs.filter
        (fun original_arc => original_arc.HEAD == arc.TAIL)).length
        ≤ original_arcs.length := List.length_filter_le _ _
    have hmul : (total_size (remove_inconsistent_values domains arc).1 + 1)
        * (original_arcs.length + 1)
        ≤ total_size domains * (original_arcs.length + 1) :=
      mul_le_mul_right' (by omega) _
    have hexp : (total_size (remove_inconsistent_values domains arc).1 + 1)
        * (original_arcs.length + 1)
        = total_size (remove_inconsistent_values domains arc).1
            * (original_arcs.length + 1) + (original_arcs.length + 1) := by ring
    simp only [List.length_append, List.length_cons]
    omega
  · have heq2 : (remove_inconsistent_values domains arc).1 = domains := by
      unfold remove_inconsistent_values at h ⊢
      exact remove_values_of_flag_false arc _ domains (by simpa using h)
    rw [heq2]
    simp only [List.length_cons]
    omega

/-- Embeds `arc_consistency(domains, constraints)`: build the arc set for
all binary constraints (both orientations), keep it as the immutable set
of original arcs, and run the worklist loop to a fixpoint. -/
def arc_consistency (domains : List (List Val)) (constraints : List DateConstraint) :
    List (List Val) :=
  let arcs := binary_arcs constraints
  ac3_loop domains arcs arcs

/-- Arc-consistency of one directed arc: every value in the tail domain
has at least one supporting value in the head domain. -/
def arc_supported (domains : List (List Val)) (arc : Arc) : Prop :=
  ∀ v ∈ domains.getD arc.TAIL [], ∃ w ∈ domains.getD arc.HEAD [],
    arc.CONSTRAINT.is_satisfied_by_values2 v w = true

instance (domains : List (List Val)) (arc : Arc) : Decidable (arc_supported domains arc) := by
  unfold arc_supported
  infer_instance

theorem riv_getD_ne (domains : List (List Val)) (arc : Arc) (j : Nat) (hj : j ≠ arc.TAIL) :
    ((remove_inconsistent_values domains arc).1).getD j [] = domains.getD j [] := by
  unfold remove_inconsistent_values
  exact remove_values_getD_ne arc j hj _ domains false

theorem riv_getD_sublist (domains : List (List Val)) (arc : Arc) (j : Nat) :
    (((remove_inconsistent_values domains arc).1).getD j []).Sublist (domains.getD j []) := by
  unfold remove_inconsistent_values
  exact remove_values_getD_sublist arc j _ domains false

theorem riv_support (domains : List (List Val)) (arc : Arc)
    (hth : arc.TAIL ≠ arc.HEAD) (hnd : (domains.getD arc.TAIL []).Nodup) :
    arc_supported (remove_inconsistent_values domains arc).1 arc := by
  intro v hv
  have hvD : v ∈ domains.getD arc.TAIL [] :=
    List.Sublist.mem hv (riv_getD_sublist domains arc arc.TAIL)
  have hs := remove_values_support arc hth v (domains.getD arc.TAIL []) domains false
    (List.Sublist.refl _) hnd (by exact hv)
  rcases hs with hnot | ⟨w, hw, hsat⟩
  · exact absurd hvD hnot
  · refine ⟨w, ?_, hsat⟩
    rw [riv_getD_ne domains arc arc.HEAD (fun hx => hth hx.symm)]
    exact hw

theorem riv_protect (domains : List (List Val)) (arc : Arc) (vt vh : Val)
    (hsat : arc.CONSTRAINT.is_satisfied_by_values2 vt vh = true)
    (heq : arc.TAIL = arc.HEAD → vt = vh)
    (hvt : vt ∈ domains.getD arc.TAIL []) (hvh : vh ∈ domains.getD arc.HEAD []) :
    vt ∈ ((remove_inconsistent_values domains arc).1).getD arc.TAIL [] ∧
    vh ∈ ((remove_inconsistent_values domains arc).1).getD arc.HEAD [] := by
  unfold remove_inconsistent_values
  exact remove_values_protect arc vt vh hsat heq _ domains false hvt hvh

theorem riv_false_supported (domains : List (List Val)) (arc : Arc)
    (hfl : (remove_inconsistent_values domains arc).2 = false) :
    arc_supported domains arc := by
  intro v hv
  unfold remove_inconsistent_values at hfl
  exact remove_values_false_supported arc _ domains hfl v hv

theorem riv_false_eq (domains : List (List Val)) (arc : Arc)
    (hfl : (remove_inconsistent_values domains arc).2 = false) :
    (remove_inconsistent_values domains arc).1 = domains := by
  unfold remove_inconsistent_values at hfl ⊢
  exact remove_values_of_flag_false arc _ domains hfl

theorem ac3_loop_length : ∀ (domains : List (List Val)) (arcs original_arcs : List Arc),
    (ac3_loop domains arcs original_arcs).length = domains.length := by
  intro domains arcs original_arcs
  induction domains, arcs, original_arcs using ac3_loop.induct with
  | case1 domains original_arcs => rw [ac3_loop]
  | case2 domains original_arcs arc rest h ih =>
    rw [ac3_loop, dif_pos h]
    rw [ih]
    unfold remove_inconsistent_values
    exact remove_values_length arc _ domains false
  | case3 domains original_arcs arc rest h ih =>
    rw [ac3_loop, dif_neg h]
    rw [ih]
    unfold remove_inconsistent_values
    exact remove_values_length arc _ domains false

theorem ac3_loop_getD_sublist (j : Nat) :
    ∀ (domains : List (List Val)) (arcs original_arcs : List Arc),
    ((ac3_loop domains arcs original_arcs).getD j []).Sublist (domains.getD j []) := by
  intro domains arcs original_arcs
  induction domains, arcs, original_arcs using ac3_loop.induct with
  | case1 domains original_arcs => rw [ac3_loop]
  | case2 domains original_arcs arc rest h ih =>
    rw [ac3_loop, dif_pos h]
    refine ih.trans ?_
    unfold remove_inconsistent_values
    exact remove_values_getD_sublist arc j _ domains false
  | case3 domains original_arcs arc rest h ih =>
    rw [ac3_loop, dif_neg h]
    refine ih.trans ?_
    unfold remove_inconsistent_values
    exact remove_values_getD_sublist arc j _ domains false

theorem ac3_loop_noop : ∀ (arcs : List Arc) (domains : List (List Val))
    (original_arcs : List Arc),
    (∀ a ∈ arcs, arc_supported domains a) →
    ac3_loop domains arcs original_arcs = domains := by
  intro arcs
  induction arcs with
  | nil => intro domains original_arcs _; rw [ac3_loop]
  | cons arc rest ih =>
    intro domains original_arcs hsup
    have hriv : remove_inconsistent_values domains arc = (domains, false) := by
      unfold remove_inconsistent_values
      exact remove_values_noop arc _ domains false
        (hsup arc (List.mem_cons_self arc rest))
    rw [ac3_loop, dif_neg (by rw [hriv]; simp)]
    rw [hriv]
    exact ih domains original_arcs (fun a ha => hsup a (List.mem_cons_of_mem arc ha))

theorem ac3_loop_post : ∀ (domains : List (List Val)) (arcs original_arcs : List Arc),
    (∀ j, (domains.getD j []).Nodup) →
    (∀ oa ∈ original_arcs, oa ∈ arcs ∨ arc_supported domains oa) →
    ∀ oa ∈ original_arcs, arc_supported (ac3_loop domains arcs original_arcs) oa := by
  intro domains arcs original_arcs
  induction domains, arcs, original_arcs using ac3_loop.induct with
  | case1 domains original_arcs =>
    intro hnd hinv oa hoa
    rw [ac3_loop]
    rcases hinv oa hoa with hmem | hsupp
    · exact absurd hmem (List.not_mem_nil oa)
    · exact hsupp
  | case2 domains original_arcs arc rest h ih =>
    intro hnd hinv oa hoa
    rw [ac3_loop, dif_pos h]
    refine ih ?_ ?_ oa hoa
    · intro j
      exact List.Nodup.sublist (riv_getD_sublist domains arc j) (hnd j)
    · intro oa2 hoa2
      by_cases hhead : oa2.HEAD = arc.TAIL
      · exact Or.inl (List.mem_append.mpr (Or.inr
          (List.mem_filter.mpr ⟨hoa2, by simp [hhead]⟩)))
      · rcases hinv oa2 hoa2 with hmem | hsupp
        · rcases List.mem_cons.mp hmem with heq | hmem2
          · subst heq
            refine Or.inr (riv_support domains oa2 ?_ (hnd oa2.TAIL))
            exact fun hx => hhead hx.symm
          · exact Or.inl (List.mem_append.mpr (Or.inl hmem2))
        · refine Or.inr ?_
          intro v hv
          have hvD : v ∈ domains.getD oa2.TAIL [] :=
            List.Sublist.mem hv (riv_getD_sublist domains arc oa2.TAIL)
          rcases hsupp v hvD with ⟨w, hw, hsat⟩
          refine ⟨w, ?_, hsat⟩
          rw [riv_getD_ne domains arc oa2.HEAD hhead]
          exact hw
  | case3 domains original_arcs arc rest h ih =>
    intro hnd hinv oa hoa
    have hfl : (remove_inconsistent_values domains arc).2 = false := by simpa using h
    have heqd := riv_false_eq domains arc hfl
    rw [ac3_loop, dif_neg h]
    refine ih ?_ ?_ oa hoa
    · rw [heqd]; exact hnd
    · rw [heqd]
      intro oa2 hoa2
      rcases hinv oa2 hoa2 with hmem | hsupp
      · rcases List.mem_cons.mp hmem with heq | hmem2
        · subst heq
          exact Or.inr (riv_false_supported domains oa2 hfl)
        · exact Or.inl hmem2
      · exact Or.inr hsupp

theorem ac3_loop_preserve (a : List Val) : ∀ (domains : List (List Val))
    (arcs original_arcs : List Arc),
    (∀ arc ∈ arcs, arc.TAIL < a.length ∧ arc.HEAD < a.length ∧
      arc.CONSTRAINT.is_satisfied_by_values2 (a.getD arc.TAIL 0) (a.getD arc.HEAD 0) = true) →
    (∀ arc ∈ original_arcs, arc.TAIL < a.length ∧ arc.HEAD < a.length ∧
      arc.CONSTRAINT.is_satisfied_by_values2 (a.getD arc.TAIL 0) (a.getD arc.HEAD 0) = true) →
    (∀ i, i < a.length → a.getD i 0 ∈ domains.getD i []) →
    ∀ i, i < a.length → a.getD i 0 ∈ (ac3_loop domains arcs original_arcs).getD i [] := by
  intro domains arcs original_arcs
  induction domains, arcs, original_arcs using ac3_loop.induct with
  | case1 domains original_arcs =>
    intro _ _ hmem i hi
    rw [ac3_loop]
    exact hmem i hi
  | case2 domains original_arcs arc rest h ih =>
    intro harcs horig hmem i hi
    rw [ac3_loop, dif_pos h]
    rcases harcs arc (List.mem_cons_self arc rest) with ⟨htl, hhd, hsat⟩
    have hprot := riv_protect domains arc (a.getD arc.TAIL 0) (a.getD arc.HEAD 0) hsat
      (fun hx => by rw [hx]) (hmem arc.TAIL htl) (hmem arc.HEAD hhd)
    refine ih ?_ horig ?_ i hi
    · intro arc2 harc2
      rcases List.mem_append.mp harc2 with h2 | h2
      · exact harcs arc2 (List.mem_cons_of_mem arc h2)
      · exact horig arc2 (List.mem_filter.mp h2).1
    · intro j hj
      by_cases hjt : j = arc.TAIL
      · rw [hjt]; exact hprot.1
      · rw [riv_getD_ne domains arc j hjt]
        exact hmem j hj
  | case3 domains original_arcs arc rest h ih =>
    intro harcs horig hmem i hi
    have hfl : (remove_inconsistent_values domains arc).2 = false := by simpa using h
    have heqd := riv_false_eq domains arc hfl
    rw [ac3_loop, dif_neg h]
    refine ih ?_ horig ?_ i hi
    · intro arc2 harc2
      exact harcs arc2 (List.mem_cons_of_mem arc harc2)
    · rw [heqd]
      exact hmem

/-- The AC-3 worklist loop driven by explicit fuel: one unit of fuel per
iteration, `none` when the fuel runs out before the worklist empties.
Used to state termination of the loop as a theorem. -/
def ac3_fuel : Nat → List (List Val) → List Arc → List Arc → Option (List (List Val))
  | 0, _, _, _ => none
  | _ + 1, domains, [], _ => some domains
  | fuel + 1, domains, arc :: rest, original_arcs =>
    if (remove_inconsistent_values domains arc).2 = true then
      ac3_fuel fuel (remove_inconsistent_values domains arc).1
        (rest ++ original_arcs.filter (fun original_arc => original_arc.HEAD == arc.TAIL))
        original_arcs
    else
      ac3_fuel fuel (remove_inconsistent_values domains arc).1 rest original_arcs

theorem ac3_fuel_spec : ∀ (fuel : Nat) (domains : List (List Val))
    (arcs original_arcs : List Arc),
    total_size domains * (original_arcs.length + 1) + arcs.length < fuel →
    ac3_fuel fuel domains arcs original_arcs
      = some (ac3_loop domains arcs original_arcs) := by
  intro fuel
  induction fuel with
  | zero => intro domains arcs original_arcs hm; omega
  | succ n ih =>
    intro domains arcs original_arcs hm
    cases arcs with
    | nil => rw [ac3_loop]; rfl
    | cons arc rest =>
      by_cases h : (remove_inconsistent_values domains arc).2 = true
      · rw [ac3_loop, dif_pos h]
        unfold ac3_fuel
        rw [if_pos h]
        refine ih _ _ _ ?_
        have hlt : total_size (remove_inconsistent_values domains arc).1
            < total_size domains := by
          unfold remove_inconsistent_values at h ⊢
          exact remove_values_size_lt arc _ domains (List.Sublist.refl _) h
        have hfl : (original_arcs.filter
            (fun original_arc => original_arc.HEAD == arc.TAIL)).length
            ≤ original_arcs.length := List.length_filter_le _ _
        have hmul : (total_size (remove_inconsistent_values domains arc).1 + 1)
            * (original_arcs.length + 1)
            ≤ total_size domains * (original_arcs.length + 1) :=
          mul_le_mul_right' (by omega) _
        have hexp : (total_size (remove_inconsistent_values domains arc).1 + 1)
            * (original_arcs.length + 1)
            = total_size (remove_inconsistent_values domains arc).1
                * (original_arcs.length + 1) + (original_arcs.length + 1) := by ring
        simp only [List.length_append, List.length_cons] at hm ⊢
        omega
      · rw [ac3_loop, dif_neg h]
        unfold ac3_fuel
        rw [if_neg h]
        refine ih _ _ _ ?_
        have hfl : (remove_inconsistent_values domains arc).2 = false := by simpa using h
        rw [riv_false_eq domains arc hfl]
        simp only [List.length_cons] at hm
        omega

theorem binary_arcs_spec : ∀ (cs : List DateConstraint), ∀ arc ∈ binary_arcs cs,
    ∃ l r sat, (DateConstraint.binary l r sat) ∈ cs ∧
      ((arc.CONSTRAINT = DateConstraint.binary l r sat ∧ arc.TAIL = l ∧ arc.HEAD = r) ∨
       (arc.CONSTRAINT = DateConstraint.binary r l (fun x y => sat y x) ∧
         arc.TAIL = r ∧ arc.HEAD = l)) := by
  intro cs
  induction cs with
  | nil => intro arc harc; exact absurd harc (List.not_mem_nil arc)
  | cons c rest ih =>
    intro arc harc
    cases c with
    | unary l sat =>
      rcases ih arc harc with ⟨l2, r2, sat2, hmem, hor⟩
      exact ⟨l2, r2, sat2, List.mem_cons_of_mem _ hmem, hor⟩
    | binary l r sat =>
      rcases List.mem_cons.mp harc with heq | harc2
      · exact ⟨l, r, sat, List.mem_cons_self _ _, Or.inl (by rw [heq]; exact ⟨rfl, rfl, rfl⟩)⟩
      · rcases List.mem_cons.mp harc2 with heq | harc3
        · refine ⟨l, r, sat, List.mem_cons_self _ _, Or.inr ?_⟩
          rw [heq]
          exact ⟨rfl, rfl, rfl⟩
        · rcases ih arc harc3 with ⟨l2, r2, sat2, hmem, hor⟩
          exact ⟨l2, r2, sat2, List.mem_cons_of_mem _ hmem, hor⟩

-- CSP Backtracking Solver (src/csp_solver.py, solve / recursive_backtracker)
-- ---------------------------------------------------------------------------

/-- Embeds `is_complete(assignment, domains, constraints)`: the assignment
is complete when its length equals the number of variables and every
constraint is satisfied by it. -/
def is_complete (assignment : List Val) (domains : List (List Val))
    (constraints : List DateConstraint) : Bool :=
  if assignment.length = domains.length then
    constraints.all (fun constraint => constraint.is_satisfied_by_assignment assignment)
  else false

/-- Embeds `recursive_backtracker(assignment, domains, date_range,
constraints)`.  The source's `date_range` parameter is passed through the
recursion but never read, so it is dropped here.  The Python indexing
`domains[variable]` raises `IndexError` when `variable` is out of range;
that is the `Except.error ()` outcome.  The `for date in
domains[variable]` loop with its early `return` is embedded as a fold
whose accumulator carries the first success (or error), which skips the
remaining candidates exactly as the early return does. -/
def recursive_backtracker (assignment : List Val) (domains : List (List Val))
    (constraints : List DateConstraint) : Except Unit (Option (List Val)) :=
  if is_complete assignment domains constraints then Except.ok (some assignment)
  else
    match hv : domains[assignment.length]? with
    | none => Except.error ()
    | some domain =>
      domain.foldl
        (fun result date =>
          match result with
          | Except.ok none =>
            if constraints.all (fun constraint =>
                constraint.is_satisfied_by_assignment (assignment ++ [date])) then
              recursive_backtracker (assignment ++ [date]) domains constraints
            else Except.ok none
          | r => r)
        (Except.ok none)
termination_by domains.length - assignment.length
decreasing_by
  have hlt : assignment.length < domains.length := by
    rcases List.getElem?_eq_some.mp hv with ⟨hh, _⟩
    exact hh
  simp only [List.length_append, List.length_cons, List.length_nil]
  omega

/-- Embeds `solve(n_meetings, date_range, constraints)`: build one
independent copy of the date range per meeting, prune with node then arc
consistency, and run the recursive backtracker on the pruned domains
starting from the empty assignment. -/
def solve (n_meetings : Nat) (date_range : List Val)
    (constraints : List DateConstraint) : Except Unit (Option (List Val)) :=
  let domains : List (List Val) := List.replicate n_meetings date_range
  let domains2 := node_consistency domains constraints
  let domains3 := arc_consistency domains2 constraints
  recursive_backtracker [] domains3 constraints

theorem is_complete_iff (assignment : List Val) (domains : List (List Val))
    (cs : List DateConstraint) :
    is_complete assignment domains cs = true ↔
      assignment.length = domains.length ∧
      ∀ c ∈ cs, c.is_satisfied_by_assignment assignment = true := by
  unfold is_complete
  by_cases h : assignment.length = domains.length
  · rw [if_pos h, List.all_eq_true]
    exact ⟨fun hall => ⟨h, hall⟩, fun hp => hp.2⟩
  · rw [if_neg h]
    constructor
    · intro hfalse
      exact absurd hfalse (by simp)
    · intro hp
      exact absurd hp.1 h

theorem sat_assignment_nil (c : DateConstraint) :
    c.is_satisfied_by_assignment [] = true := by
  cases c <;> rfl

theorem rb_sound : ∀ (assignment : List Val) (domains : List (List Val))
    (cs : List DateConstraint),
    ∀ a, recursive_backtracker assignment domains cs = Except.ok (some a) →
    is_complete a domains cs = true := by
  intro assignment domains cs
  induction assignment, domains, cs using recursive_backtracker.induct with
  | case1 assignment domains cs hic =>
    intro a ha
    rw [recursive_backtracker, if_pos hic] at ha
    have : some assignment = some a := Except.ok.inj ha
    rw [← Option.some.inj this]
    exact hic
  | case2 assignment domains cs hic hnone =>
    intro a ha
    rw [recursive_backtracker, if_neg hic] at ha
    split at ha
    · exact absurd ha (by simp)
    · rename_i dom2 hsome
      rw [hnone] at hsome
      exact absurd hsome (by simp)
  | case3 assignment domains cs hic dom hsome ih =>
    intro a ha
    rw [recursive_backtracker, if_neg hic] at ha
    split at ha
    · rename_i hnone
      rw [hsome] at hnone
      exact absurd hnone (by simp)
    · rename_i dom2 hsome2
      have hinner : ∀ (cand : List Val) (acc : Except Unit (Option (List Val))),
          (∀ b, acc = Except.ok (some b) → is_complete b domains cs = true) →
          ∀ b, cand.foldl (fun result date =>
              match result with
              | Except.ok none =>
                if cs.all (fun constraint =>
                    constraint.is_satisfied_by_assignment (assignment ++ [date])) then
                  recursive_backtracker (assignment ++ [date]) domains cs
                else Except.ok none
              | r => r) acc = Except.ok (some b) →
          is_complete b domains cs = true := by
        intro cand
        induction cand with
        | nil =>
          intro acc hacc b hb
          exact hacc b hb
        | cons d rest ihc =>
          intro acc hacc b hb
          rw [List.foldl_cons] at hb
          refine ihc _ ?_ b hb
          intro b2 hb2
          match acc, hb2 with
          | Except.ok none, hb2 =>
            have hb3 : (if cs.all (fun constraint =>
                constraint.is_satisfied_by_assignment (assignment ++ [d])) then
                  recursive_backtracker (assignment ++ [d]) domains cs
                else Except.ok none) = Except.ok (some b2) := hb2
            by_cases hchk : cs.all (fun constraint =>
                constraint.is_satisfied_by_assignment (assignment ++ [d])) = true
            · rw [if_pos hchk] at hb3
              exact ih d b2 hb3
            · rw [if_neg hchk] at hb3
              exact absurd hb3 (by simp)
          | Except.ok (some x), hb2 =>
            have hb3 : (Except.ok (some x) : Except Unit (Option (List Val)))
                = Except.ok (some b2) := hb2
            exact hacc b2 hb3
          | Except.error e, hb2 =>
            have hb3 : (Except.error e : Except Unit (Option (List Val)))
                = Except.ok (some b2) := hb2
            exact absurd hb3 (by simp)
      exact hinner dom2 (Except.ok none) (fun b hb => absurd hb (by simp)) a ha

theorem rb_no_error : ∀ (assignment : List Val) (domains : List (List Val))
    (cs : List DateConstraint),
    (∀ c ∈ cs, c.is_satisfied_by_assignment assignment = true) →
    assignment.length ≤ domains.length →
    recursive_backtracker assignment domains cs ≠ Except.error () := by
  intro assignment domains cs
  induction assignment, domains, cs using recursive_backtracker.induct with
  | case1 assignment domains cs hic =>
    intro _ _
    rw [recursive_backtracker, if_pos hic]
    simp
  | case2 assignment domains cs hic hnone =>
    intro hsat hlen
    exfalso
    have hne : assignment.length ≠ domains.length := by
      intro heq
      exact hic ((is_complete_iff assignment domains cs).mpr ⟨heq, hsat⟩)
    have hlt : assignment.length < domains.length := by omega
    rw [List.getElem?_eq_getElem hlt] at hnone
    exact absurd hnone (by simp)
  | case3 assignment domains cs hic dom hsome ih =>
    intro hsat hlen
    rw [recursive_backtracker, if_neg hic]
    split
    · rename_i hnone
      rw [hsome] at hnone
      exact absurd hnone (by simp)
    · rename_i dom2 hsome2
      have hlt : assignment.length < domains.length := by
        rcases List.getElem?_eq_some.mp hsome with ⟨hh, _⟩
        exact hh
      have hinner : ∀ (cand : List Val) (acc : Except Unit (Option (List Val))),
          acc ≠ Except.error () →
          cand.foldl (fun result date =>
            match result with
            | Except.ok none =>
              if cs.all (fun constraint =>
                  constraint.is_satisfied_by_assignment (assignment ++ [date])) then
                recursive_backtracker (assignment ++ [date]) domains cs
              else Except.ok none
            | r => r) acc ≠ Except.error () := by
        intro cand
        induction cand with
        | nil => intro acc hacc; exact hacc
        | cons d rest ihc =>
          intro acc hacc
          rw [List.foldl_cons]
          refine ihc _ ?_
          match acc, hacc with
          | Except.ok none, _ =>
            show (if cs.all (fun constraint =>
                constraint.is_satisfied_by_assignment (assignment ++ [d])) then
                  recursive_backtracker (assignment ++ [d]) domains cs
                else Except.ok none) ≠ Except.error ()
            by_cases hchk : cs.all (fun constraint =>
                constraint.is_satisfied_by_assignment (assignment ++ [d])) = true
            · rw [if_pos hchk]
              refine ih d ?_ ?_
              · exact fun c hc => List.all_eq_true.mp hchk c hc
              · simp only [List.length_append, List.length_cons, List.length_nil]
                omega
            · rw [if_neg hchk]
              simp
          | Except.ok (some x), _ =>
            show (Except.ok (some x) : Except Unit (Option (List Val))) ≠ Except.error ()
            simp
          | Except.error e, hacc =>
            cases e
            exact absurd rfl hacc
      exact hinner dom2 (Except.ok none) (by simp)

theorem sat_take (c : DateConstraint) (a : List Val) (k : Nat)
    (h : c.is_satisfied_by_assignment a = true) :
    c.is_satisfied_by_assignment (a.take k) = true := by
  cases c with
  | unary l sat =>
    simp only [DateConstraint.is_satisfied_by_assignment] at h ⊢
    cases ht : (a.take k)[l]? with
    | none => rfl
    | some v =>
      rw [List.getElem?_take] at ht
      by_cases hlk : l < k
      · rw [if_pos hlk] at ht
        rw [ht] at h
        exact h
      · rw [if_neg hlk] at ht
        exact absurd ht (by simp)
  | binary l r sat =>
    simp only [DateConstraint.is_satisfied_by_assignment] at h ⊢
    cases ht1 : (a.take k)[l]? with
    | none => cases ht2 : (a.take k)[r]? <;> rfl
    | some v =>
      cases ht2 : (a.take k)[r]? with
      | none => rfl
      | some w =>
        rw [List.getElem?_take] at ht1 ht2
        by_cases hlk : l < k
        · by_cases hrk : r < k
          · rw [if_pos hlk] at ht1
            rw [if_pos hrk] at ht2
            rw [ht1, ht2] at h
            exact h
          · rw [if_neg hrk] at ht2
            exact absurd ht2 (by simp)
        · rw [if_neg hlk] at ht1
          exact absurd ht1 (by simp)

theorem rb_complete (a : List Val) :
    ∀ (assignment : List Val) (domains : List (List Val)) (cs : List DateConstraint),
    a.length = domains.length →
    (∀ c ∈ cs, c.is_satisfied_by_assignment a = true) →
    (∀ i, i < a.length → a.getD i 0 ∈ domains.getD i []) →
    (∃ k, k ≤ a.length ∧ assignment = a.take k) →
    ∃ r, recursive_backtracker assignment domains cs = Except.ok (some r) := by
  intro assignment domains cs
  induction assignment, domains, cs using recursive_backtracker.induct with
  | case1 assignment domains cs hic =>
    intro _ _ _ _
    exact ⟨assignment, by rw [recursive_backtracker, if_pos hic]⟩
  | case2 assignment domains cs hic hnone =>
    intro hlen hsat hmem hk
    exfalso
    rcases hk with ⟨k, hkle, hkeq⟩
    by_cases hka : k = a.length
    · subst hka
      rw [List.take_length] at hkeq
      have hcomp : is_complete assignment domains cs = true := by
        rw [hkeq]
        exact (is_complete_iff a domains cs).mpr ⟨hlen, hsat⟩
      exact hic hcomp
    · have hklt : k < a.length := by omega
      have hal : assignment.length = k := by
        rw [hkeq, List.length_take]
        omega
      have hlt : assignment.length < domains.length := by omega
      rw [List.getElem?_eq_getElem hlt] at hnone
      exact absurd hnone (by simp)
  | case3 assignment domains cs hic dom hsome ih =>
    intro hlen hsat hmem hk
    rcases hk with ⟨k, hkle, hkeq⟩
    by_cases hka : k = a.length
    · exfalso
      subst hka
      rw [List.take_length] at hkeq
      have hcomp : is_complete assignment domains cs = true := by
        rw [hkeq]
        exact (is_complete_iff a domains cs).mpr ⟨hlen, hsat⟩
      exact hic hcomp
    · have hklt : k < a.length := by omega
      have hal : assignment.length = k := by
        rw [hkeq, List.length_take]
        omega
      have hlt : assignment.length < domains.length := by omega
      have hvk : a[k]? = some (a.getD k 0) := by
        rw [List.getElem?_eq_getElem (by omega : k < a.length)]
        rw [List.getD_eq_getElem a 0 (by omega : k < a.length)]
      have hext : assignment ++ [a.getD k 0] = a.take (k + 1) := by
        rw [List.take_succ, hvk, hkeq]
        rfl
      have hmemdom : a.getD k 0 ∈ dom := by
        have hdomk : domains.getD assignment.length [] = dom := by
          rw [List.getD_eq_getElem domains [] hlt]
          rcases List.getElem?_eq_some.mp hsome with ⟨hh, hde⟩
          exact hde
        have := hmem k hklt
        rw [← hal] at this ⊢
        rw [hdomk] at this
        exact this
      rw [recursive_backtracker, if_neg hic]
      split
      · rename_i hnone
        rw [hsome] at hnone
        exact absurd hnone (by simp)
      · rename_i dom2 hsome2
        have hdd : dom2 = dom := by
          rw [hsome] at hsome2
          exact (Option.some.inj hsome2).symm
        have hinner : ∀ (cand : List Val) (acc : Except Unit (Option (List Val))),
            ((∃ r, acc = Except.ok (some r)) ∨
              (acc = Except.ok none ∧ a.getD k 0 ∈ cand)) →
            ∃ r, cand.foldl (fun result date =>
              match result with
              | Except.ok none =>
                if cs.all (fun constraint =>
                    constraint.is_satisfied_by_assignment (assignment ++ [date])) then
                  recursive_backtracker (assignment ++ [date]) domains cs
                else Except.ok none
              | r => r) acc = Except.ok (some r) := by
          intro cand
          induction cand with
          | nil =>
            intro acc hacc
            rcases hacc with ⟨r, hr⟩ | ⟨_, hmm⟩
            · exact ⟨r, hr⟩
            · exact absurd hmm (List.not_mem_nil _)
          | cons d rest ihc =>
            intro acc hacc
            rw [List.foldl_cons]
            rcases hacc with ⟨r, hr⟩ | ⟨haccn, hmm⟩
            · subst hr
              refine ihc _ (Or.inl ⟨r, rfl⟩)
            · subst haccn
              by_cases hd : d = a.getD k 0
              · have hchk : cs.all (fun constraint =>
                    constraint.is_satisfied_by_assignment (assignment ++ [d])) = true := by
                  rw [hd, hext]
                  exact List.all_eq_true.mpr (fun c hc => sat_take c a (k+1) (hsat c hc))
                obtain ⟨r, hr⟩ := ih d hlen hsat hmem
                  ⟨k+1, by omega, by rw [hd]; exact hext⟩
                refine ihc _ (Or.inl ⟨r, ?_⟩)
                show (if cs.all (fun constraint =>
                    constraint.is_satisfied_by_assignment (assignment ++ [d])) then
                      recursive_backtracker (assignment ++ [d]) domains cs
                    else Except.ok none) = Except.ok (some r)
                rw [if_pos hchk]
                exact hr
              · have hrest : a.getD k 0 ∈ rest := by
                  rcases List.mem_cons.mp hmm with he | hrest
                  · exact absurd he.symm hd
                  · exact hrest
                by_cases hchk : cs.all (fun constraint =>
                    constraint.is_satisfied_by_assignment (assignment ++ [d])) = true
                · obtain ⟨res, hres⟩ : ∃ res,
                      recursive_backtracker (assignment ++ [d]) domains cs = res :=
                    ⟨_, rfl⟩
                  match res, hres with
                  | Except.error e, hres =>
                    cases e
                    exact absurd hres (rb_no_error (assignment ++ [d]) domains cs
                      (fun c hc => List.all_eq_true.mp hchk c hc)
                      (by simp only [List.length_append, List.length_cons,
                            List.length_nil]; omega))
                  | Except.ok none, hres =>
                    refine ihc _ (Or.inr ⟨?_, hrest⟩)
                    show (if cs.all (fun constraint =>
                        constraint.is_satisfied_by_assignment (assignment ++ [d])) then
                          recursive_backtracker (assignment ++ [d]) domains cs
                        else Except.ok none) = Except.ok none
                    rw [if_pos hchk]
                    exact hres
                  | Except.ok (some r), hres =>
                    refine ihc _ (Or.inl ⟨r, ?_⟩)
                    show (if cs.all (fun constraint =>
                        constraint.is_satisfied_by_assignment (assignment ++ [d])) then
                          recursive_backtracker (assignment ++ [d]) domains cs
                        else Except.ok none) = Except.ok (some r)
                    rw [if_pos hchk]
                    exact hres
                · refine ihc _ (Or.inr ⟨?_, hrest⟩)
                  show (if cs.all (fun constraint =>
                      constraint.is_satisfied_by_assignment (assignment ++ [d])) then
                        recursive_backtracker (assignment ++ [d]) domains cs
                      else Except.ok none) = Except.ok none
                  rw [if_neg hchk]
        exact hinner dom2 (Except.ok none) (Or.inr ⟨rfl, by rw [hdd]; exact hmemdom⟩)

/-- All variable indices mentioned by a constraint refer to one of the
`n` meetings; this is what it takes for a constraint set to fit an
`n`-meeting problem (spec section 1: each meeting is a variable). -/
def constraint_in_range (n : Nat) : DateConstraint → Bool
  | .unary l _ => decide (l < n)
  | .binary l r _ => decide (l < n) && decide (r < n)

theorem getD_replicate_lt {α : Type} (x d : α) (n i : Nat) (h : i < n) :
    (List.replicate n x).getD i d = x := by
  rw [List.getD_eq_getElem _ _ (by rw [List.length_replicate]; omega)]
  exact List.getElem_replicate x _

theorem getD_mem_self {α : Type} (a : List α) (d : α) (i : Nat) (h : i < a.length) :
    a.getD i d ∈ a := by
  rw [List.getD_eq_getElem a d h]
  exact List.getElem_mem h

theorem length_arc_consistency (domains : List (List Val)) (cs : List DateConstraint) :
    (arc_consistency domains cs).length = domains.length :=
  ac3_loop_length domains (binary_arcs cs) (binary_arcs cs)

theorem node_consistency_keep (domains : List (List Val)) (cs : List DateConstraint)
    (a : List Val) (hsat : ∀ c ∈ cs, c.is_satisfied_by_assignment a = true) :
    ∀ i, i < a.length → a.getD i 0 ∈ domains.getD i [] →
    a.getD i 0 ∈ (node_consistency domains cs).getD i [] := by
  intro i hi hmem
  unfold node_consistency
  rw [nc_loop_getD]
  simp only [Nat.zero_add]
  refine prune_domain_keep i (a.getD i 0) ?_ _ _ hmem
  intro uc hucmem hlval
  rcases List.mem_filter.mp hucmem with ⟨hucs, harity⟩
  cases uc with
  | binary l r sat => simp [DateConstraint.arity] at harity
  | unary l sat =>
    have hl : l = i := hlval
    subst hl
    have hs := hsat _ hucs
    simp only [DateConstraint.is_satisfied_by_assignment] at hs
    rw [List.getElem?_eq_getElem (show l < a.length from hi)] at hs
    simp only [DateConstraint.is_satisfied_by_values1]
    rw [List.getD_eq_getElem a 0 (show l < a.length from hi)]
    exact hs

theorem binary_arcs_good (cs : List DateConstraint) (a : List Val) (n : Nat)
    (hlen : a.length = n)
    (hwf : ∀ c ∈ cs, constraint_in_range n c = true)
    (hsat : ∀ c ∈ cs, c.is_satisfied_by_assignment a = true) :
    ∀ arc ∈ binary_arcs cs, arc.TAIL < a.length ∧ arc.HEAD < a.length ∧
      arc.CONSTRAINT.is_satisfied_by_values2 (a.getD arc.TAIL 0) (a.getD arc.HEAD 0)
        = true := by
  intro arc harc
  rcases binary_arcs_spec cs arc harc with ⟨l, r, sat, hmem, hor⟩
  have hrange := hwf _ hmem
  simp only [constraint_in_range, Bool.and_eq_true, decide_eq_true_eq] at hrange
  have hla : l < a.length := by omega
  have hra : r < a.length := by omega
  have hsab := hsat _ hmem
  simp only [DateConstraint.is_satisfied_by_assignment] at hsab
  rw [List.getElem?_eq_getElem hla, List.getElem?_eq_getElem hra] at hsab
  have hvals : sat (a.getD l 0) (a.getD r 0) = true := by
    rw [List.getD_eq_getElem a 0 hla, List.getD_eq_getElem a 0 hra]
    exact hsab
  rcases hor with ⟨hcon, htl, hhd⟩ | ⟨hcon, htl, hhd⟩
  · rw [htl, hhd, hcon]
    exact ⟨hla, hra, hvals⟩
  · rw [htl, hhd, hcon]
    exact ⟨hra, hla, hvals⟩

theorem solve_sound_aux (n : Nat) (dr : List Val) (cs : List DateConstraint)
    (a : List Val) (h : solve n dr cs = Except.ok (some a)) :
    a.length = n ∧ ∀ c ∈ cs, c.is_satisfied_by_assignment a = true := by
  have h2 : recursive_backtracker []
      (arc_consistency (node_consistency (List.replicate n dr) cs) cs) cs
      = Except.ok (some a) := h
  have hic := rb_sound [] _ cs a h2
  rcases (is_complete_iff a _ cs).mp hic with ⟨hl, hsat⟩
  refine ⟨?_, hsat⟩
  rw [hl, length_arc_consistency, length_node_consistency, List.length_replicate]

theorem solve_no_error_aux (n : Nat) (dr : List Val) (cs : List DateConstraint) :
    solve n dr cs ≠ Except.error () := by
  show recursive_backtracker []
      (arc_consistency (node_consistency (List.replicate n dr) cs) cs) cs
      ≠ Except.error ()
  exact rb_no_error [] _ cs (fun c _ => sat_assignment_nil c) (by simp)

theorem solve_complete_aux (n : Nat) (dr : List Val) (cs : List DateConstraint)
    (a : List Val)
    (hwf : ∀ c ∈ cs, constraint_in_range n c = true)
    (hlen : a.length = n)
    (hsub : ∀ v ∈ a, v ∈ dr)
    (hsat : ∀ c ∈ cs, c.is_satisfied_by_assignment a = true) :
    ∃ r, solve n dr cs = Except.ok (some r) := by
  have hmem1 : ∀ i, i < a.length → a.getD i 0 ∈ (List.replicate n dr).getD i [] := by
    intro i hi
    rw [getD_replicate_lt dr [] n i (by omega)]
    exact hsub _ (getD_mem_self a 0 i hi)
  have hmem2 : ∀ i, i < a.length →
      a.getD i 0 ∈ (node_consistency (List.replicate n dr) cs).getD i [] :=
    fun i hi => node_consistency_keep _ cs a hsat i hi (hmem1 i hi)
  have hgood := binary_arcs_good cs a n hlen hwf hsat
  have hmem3 : ∀ i, i < a.length →
      a.getD i 0 ∈ (arc_consistency (node_consistency (List.replicate n dr) cs) cs).getD
        i [] := by
    intro i hi
    exact ac3_loop_preserve a _ _ _ hgood hgood hmem2 i hi
  have hlen3 : a.length
      = (arc_consistency (node_consistency (List.replicate n dr) cs) cs).length := by
    rw [length_arc_consistency, length_node_consistency, List.length_replicate, hlen]
  have hr := rb_complete a [] _ cs hlen3 hsat hmem3 ⟨0, by omega, by rw [List.take_zero]⟩
  exact hr

-- Heap model of solve (for the aliasing / caller-frame specification)
-- ---------------------------------------------------------------------------
-- In Python, `date_range` and each entry of `domains` are references to
-- heap-allocated `set` objects, and the pruning passes mutate the
-- referenced sets in place.  To state what `date_range.copy()` buys, this
-- section re-runs the same algorithm over an explicit heap: a `Store` is
-- the list of live set objects, and `domains` becomes a list of cell
-- indices (references) into it.

/-- Heap of Python `set[datetime]` objects; a reference is an index. -/
abbrev Store := List (List Val)

/-- Dereference a cell of the heap. -/
def store_get (s : Store) (r : Nat) : List Val := s.getD r []

/-- Turn an arc over variable indices into an arc over heap cells by
dereferencing through the list of domain references; this is the Python
`domains[arc.TAIL]` / `domains[arc.HEAD]` object lookup. -/
def reindex (refs : List Nat) (arc : Arc) : Arc :=
  { CONSTRAINT := arc.CONSTRAINT, TAIL := refs.getD arc.TAIL 0, HEAD := refs.getD arc.HEAD 0 }

/-- Heap-level outer loop of `node_consistency`: walk the domain
references in order, pruning each referenced set in place. -/
def nc_store_loop : List Nat → Nat → Store → List DateConstraint → Store
  | [], _, s, _ => s
  | r :: rest, index, s, unary_constraints =>
    nc_store_loop rest (index + 1)
      (modify_at (fun domain => prune_domain index domain domain unary_constraints) r s)
      unary_constraints

/-- Heap-level `node_consistency`. -/
def node_consistency_store (s : Store) (refs : List Nat)
    (constraints : List DateConstraint) : Store :=
  nc_store_loop refs 0 s (constraints.filter (fun c => c.arity == 1))

/-- Heap-level AC-3 worklist loop: the same worklist discipline as
`ac3_loop`; each revision dereferences the arc's endpoints through `refs`
and mutates the tail cell in place. -/
def ac3_store_loop (s : Store) (refs : List Nat) (arcs original_arcs : List Arc) :
    Store :=
  match arcs with
  | [] => s
  | arc :: rest =>
    if h : (remove_inconsistent_values s (reindex refs arc)).2 = true then
      ac3_store_loop (remove_inconsistent_values s (reindex refs arc)).1 refs
        (rest ++ original_arcs.filter (fun original_arc => original_arc.HEAD == arc.TAIL))
        original_arcs
    else
      ac3_store_loop (remove_inconsistent_values s (reindex refs arc)).1 refs rest
        original_arcs
termination_by total_size s * (original_arcs.length + 1) + arcs.length
decreasing_by
  · have hlt : total_size (remove_inconsistent_values s (reindex refs arc)).1
        < total_size s := by
      unfold remove_inconsistent_values at h ⊢
      exact remove_values_size_lt (reindex refs arc) _ s (List.Sublist.refl _) h
    have hfl : (original_arcs.filter
        (fun original_arc => original_arc.HEAD == arc.TAIL)).length
        ≤ original_arcs.length := List.length_filter_le _ _
    have hmul : (total_size (remove_inconsistent_values s (reindex refs arc)).1 + 1)
        * (original_arcs.length + 1)
        ≤ total_size s * (original_arcs.length + 1) :=
      mul_le_mul_right' (by omega) _
    have hexp : (total_size (remove_inconsistent_values s (reindex refs arc)).1 + 1)
        * (original_arcs.length + 1)
        = total_size (remove_inconsistent_values s (reindex refs arc)).1
            * (original_arcs.length + 1) + (original_arcs.length + 1) := by ring
    simp only [List.length_append, List.length_cons]
    omega
  · have heq2 : (remove_inconsistent_values s (reindex refs arc)).1 = s := by
      unfold remove_inconsistent_values at h ⊢
      exact remove_values_of_flag_false (reindex refs arc) _ s (by simpa using h)
    rw [heq2]
    simp only [List.length_cons]
    omega

/-- Heap-level `is_complete`: the number of variables is the number of
domain references. -/
def is_complete_store (assignment : List Val) (refs : List Nat)
    (constraints : List DateConstraint) : Bool :=
  if assignment.length = refs.length then
    constraints.all (fun constraint => constraint.is_satisfied_by_assignment assignment)
  else false

/-- Heap-level `recursive_backtracker`: reads the current variable's
domain through its reference; never writes the heap. -/
def rb_store (s : Store) (refs : List Nat) (assignment : List Val)
    (constraints : List DateConstraint) : Except Unit (Option (List Val)) :=
  if is_complete_store assignment refs constraints then Except.ok (some assignment)
  else
    match hv : refs[assignment.length]? with
    | none => Except.error ()
    | some r =>
      (store_get s r).foldl
        (fun result date =>
          match result with
          | Except.ok none =>
            if constraints.all (fun constraint =>
                constraint.is_satisfied_by_assignment (assignment ++ [date])) then
              rb_store s refs (assignment ++ [date]) constraints
            else Except.ok none
          | r2 => r2)
        (Except.ok none)
termination_by refs.length - assignment.length
decreasing_by
  have hlt : assignment.length < refs.length := by
    rcases List.getElem?_eq_some.mp hv with ⟨hh, _⟩
    exact hh
  simp only [List.length_append, List.length_cons, List.length_nil]
  omega

/-- Heap-level `solve`: the caller's date range lives in cell `r0`;
`domains = [date_range.copy() for num in range(n_meetings)]` allocates one
fresh cell per meeting, each holding a copy of the caller's set; then the
two pruning passes run over those cells and the backtracker reads them.
Returns the final heap, the domain references, and the result. -/
def solve_store (s0 : Store) (r0 : Nat) (n_meetings : Nat)
    (constraints : List DateConstraint) :
    Store × List Nat × Except Unit (Option (List Val)) :=
  let refs : List Nat := (List.range n_meetings).map (fun i => s0.length + i)
  let s1 : Store := s0 ++ List.replicate n_meetings (store_get s0 r0)
  let s2 : Store := node_consistency_store s1 refs constraints
  let s3 : Store := ac3_store_loop s2 refs (binary_arcs constraints)
    (binary_arcs constraints)
  (s3, refs, rb_store s3 refs [] constraints)

/-- The heap `s` seen through the references `refs` is exactly the pure
list of domains. -/
def store_rel (s : Store) (refs : List Nat) (domains : List (List Val)) : Prop :=
  ∀ i, i < refs.length → store_get s (refs.getD i 0) = domains.getD i []

theorem getD_eq_of_getElem? {α : Type} (l : List α) (d : α) (k : Nat) (x : α)
    (h : l[k]? = some x) : l.getD k d = x := by
  rcases List.getElem?_eq_some.mp h with ⟨hh, he⟩
  rw [List.getD_eq_getElem _ _ hh]
  exact he

theorem sim_remove_values (refs : List Nat) (arc : Arc)
    (hinj : ∀ i j, i < refs.length → j < refs.length → i ≠ j →
      refs.getD i 0 ≠ refs.getD j 0)
    (ht : arc.TAIL < refs.length) (hh : arc.HEAD < refs.length) :
    ∀ (copy : List Val) (s : Store) (domains : List (List Val)) (rm : Bool),
    store_rel s refs domains →
    (∀ i, i < refs.length → refs.getD i 0 < s.length) →
    refs.length = domains.length →
    (remove_values (reindex refs arc) copy s rm).2 = (remove_values arc copy domains rm).2
    ∧ store_rel (remove_values (reindex refs arc) copy s rm).1 refs
        (remove_values arc copy domains rm).1
    ∧ (remove_values (reindex refs arc) copy s rm).1.length = s.length := by
  intro copy
  induction copy with
  | nil =>
    intro s domains rm hrel hbound hlen
    exact ⟨rfl, hrel, rfl⟩
  | cons d rest ih =>
    intro s domains rm hrel hbound hlen
    have hheads : s.getD (reindex refs arc).HEAD [] = domains.getD arc.HEAD [] :=
      hrel arc.HEAD hh
    unfold remove_values
    by_cases hany : (domains.getD arc.HEAD []).any
        (fun head_date => arc.CONSTRAINT.is_satisfied_by_values2 d head_date) = true
    · have hany2 : (s.getD (reindex refs arc).HEAD []).any
          (fun head_date => (reindex refs arc).CONSTRAINT.is_satisfied_by_values2
            d head_date) = true := by
        rw [hheads]
        exact hany
      rw [if_pos hany2, if_pos hany]
      exact ih s domains rm hrel hbound hlen
    · have hany2 : ¬ (s.getD (reindex refs arc).HEAD []).any
          (fun head_date => (reindex refs arc).CONSTRAINT.is_satisfied_by_values2
            d head_date) = true := by
        rw [hheads]
        exact hany
      rw [if_neg hany2, if_neg hany]
      have htd : arc.TAIL < domains.length := by omega
      have hreft : refs.getD arc.TAIL 0 < s.length := hbound arc.TAIL ht
      have hstep := ih (modify_at (fun dl => dl.erase d) (reindex refs arc).TAIL s)
        (modify_at (fun dl => dl.erase d) arc.TAIL domains) true ?_ ?_ ?_
      · exact ⟨hstep.1, hstep.2.1, by rw [hstep.2.2, length_modify_at]⟩
      · intro i hi
        by_cases hit : i = arc.TAIL
        · rw [hit]
          have h1 : store_get (modify_at (fun dl => dl.erase d)
              (reindex refs arc).TAIL s) (refs.getD arc.TAIL 0)
              = (store_get s (refs.getD arc.TAIL 0)).erase d := by
            unfold store_get
            exact getD_modify_at_self _ _ _ s hreft
          have h2 : (modify_at (fun dl => dl.erase d) arc.TAIL domains).getD
              arc.TAIL [] = (domains.getD arc.TAIL []).erase d := by
            exact getD_modify_at_self _ _ _ domains htd
          rw [h1, h2]
          rw [show store_get s (refs.getD arc.TAIL 0) = domains.getD arc.TAIL []
            from hrel arc.TAIL ht]
        · have hne : refs.getD i 0 ≠ refs.getD arc.TAIL 0 :=
            hinj i arc.TAIL hi ht hit
          have h1 : store_get (modify_at (fun dl => dl.erase d)
              (reindex refs arc).TAIL s) (refs.getD i 0)
              = store_get s (refs.getD i 0) := by
            unfold store_get
            exact getD_modify_at_ne _ _ _ _ s hne
          have h2 : (modify_at (fun dl => dl.erase d) arc.TAIL domains).getD i []
              = domains.getD i [] :=
            getD_modify_at_ne _ _ _ _ domains hit
          rw [h1, h2]
          exact hrel i hi
      · intro i hi
        rw [length_modify_at]
        exact hbound i hi
      · rw [length_modify_at]
        exact hlen

theorem sim_riv (refs : List Nat) (arc : Arc) (s : Store)
    (domains : List (List Val))
    (hinj : ∀ i j, i < refs.length → j < refs.length → i ≠ j →
      refs.getD i 0 ≠ refs.getD j 0)
    (ht : arc.TAIL < refs.length) (hh : arc.HEAD < refs.length)
    (hrel : store_rel s refs domains)
    (hbound : ∀ i, i < refs.length → refs.getD i 0 < s.length)
    (hlen : refs.length = domains.length) :
    (remove_inconsistent_values s (reindex refs arc)).2
      = (remove_inconsistent_values domains arc).2
    ∧ store_rel (remove_inconsistent_values s (reindex refs arc)).1 refs
        (remove_inconsistent_values domains arc).1
    ∧ (remove_inconsistent_values s (reindex refs arc)).1.length = s.length := by
  unfold remove_inconsistent_values
  have hcopy : s.getD (reindex refs arc).TAIL [] = domains.getD arc.TAIL [] :=
    hrel arc.TAIL ht
  rw [hcopy]
  exact sim_remove_values refs arc hinj ht hh _ s domains false hrel hbound hlen

theorem nc_store_loop_frame : ∀ (refsL : List Nat) (idx : Nat) (s : Store)
    (ucs : List DateConstraint) (c : Nat), c ∉ refsL →
    store_get (nc_store_loop refsL idx s ucs) c = store_get s c := by
  intro refsL
  induction refsL with
  | nil => intro idx s ucs c _; rfl
  | cons r rest ih =>
    intro idx s ucs c hc
    unfold nc_store_loop
    rw [ih (idx+1) _ ucs c (fun hmem => hc (List.mem_cons_of_mem r hmem))]
    unfold store_get
    exact getD_modify_at_ne _ _ r c s (fun he => hc (he ▸ List.mem_cons_self r rest))

theorem nc_store_loop_length : ∀ (refsL : List Nat) (idx : Nat) (s : Store)
    (ucs : List DateConstraint),
    (nc_store_loop refsL idx s ucs).length = s.length := by
  intro refsL
  induction refsL with
  | nil => intro idx s ucs; rfl
  | cons r rest ih =>
    intro idx s ucs
    unfold nc_store_loop
    rw [ih (idx+1) _ ucs, length_modify_at]

theorem sim_nc : ∀ (refsL : List Nat) (idx : Nat) (s : Store)
    (domains : List (List Val)) (ucs : List DateConstraint),
    refsL.Nodup →
    (∀ i, i < refsL.length → refsL.getD i 0 < s.length) →
    (∀ i, i < refsL.length → store_get s (refsL.getD i 0) = domains.getD i []) →
    refsL.length = domains.length →
    ∀ i, i < refsL.length →
    store_get (nc_store_loop refsL idx s ucs) (refsL.getD i 0)
      = (nc_loop domains ucs idx).getD i [] := by
  intro refsL
  induction refsL with
  | nil => intro idx s domains ucs _ _ _ _ i hi; simp at hi
  | cons r rest ih =>
    intro idx s domains ucs hnd hbound hrel hlen i hi
    cases domains with
    | nil => simp at hlen
    | cons d drest =>
      have hs0 : store_get s r = d := hrel 0 (by simp)
      have hrlt : r < s.length := hbound 0 (by simp)
      have hrnotin : r ∉ rest := (List.nodup_cons.mp hnd).1
      unfold nc_store_loop
      simp only [nc_loop]
      cases i with
      | zero =>
        simp only [List.getD_cons_zero]
        rw [nc_store_loop_frame rest (idx+1) _ ucs r hrnotin]
        unfold store_get
        rw [getD_modify_at_self _ _ r s hrlt]
        rw [show s.getD r [] = d from hs0]
      | succ m =>
        simp only [List.getD_cons_succ]
        have hm : m < rest.length := by simpa using hi
        refine ih (idx+1) _ drest ucs (List.nodup_cons.mp hnd).2 ?_ ?_
          (by simpa using hlen) m hm
        · intro j hj
          rw [length_modify_at]
          exact hbound (j+1) (by simpa using hj)
        · intro j hj
          have hne : rest.getD j 0 ≠ r := by
            intro he
            exact hrnotin (he ▸ getD_mem_self rest 0 j hj)
          unfold store_get
          rw [getD_modify_at_ne _ _ r _ s hne]
          exact hrel (j+1) (by simpa using hj)

theorem binary_arcs_bound (cs : List DateConstraint) (n : Nat)
    (hwf : ∀ c ∈ cs, constraint_in_range n c = true) :
    ∀ arc ∈ binary_arcs cs, arc.TAIL < n ∧ arc.HEAD < n := by
  intro arc harc
  rcases binary_arcs_spec cs arc harc with ⟨l, r, sat, hmem, hor⟩
  have hrange := hwf _ hmem
  simp only [constraint_in_range, Bool.and_eq_true, decide_eq_true_eq] at hrange
  rcases hor with ⟨_, htl, hhd⟩ | ⟨_, htl, hhd⟩ <;> rw [htl, hhd] <;> omega

theorem sim_ac3 (refs : List Nat)
    (hinj : ∀ i j, i < refs.length → j < refs.length → i ≠ j →
      refs.getD i 0 ≠ refs.getD j 0) :
    ∀ (domains : List (List Val)) (arcs original_arcs : List Arc),
    ∀ (s : Store),
    store_rel s refs domains →
    (∀ i, i < refs.length → refs.getD i 0 < s.length) →
    refs.length = domains.length →
    (∀ a ∈ arcs, a.TAIL < refs.length ∧ a.HEAD < refs.length) →
    (∀ a ∈ original_arcs, a.TAIL < refs.length ∧ a.HEAD < refs.length) →
    store_rel (ac3_store_loop s refs arcs original_arcs) refs
      (ac3_loop domains arcs original_arcs)
    ∧ (ac3_store_loop s refs arcs original_arcs).length = s.length := by
  intro domains arcs original_arcs
  induction domains, arcs, original_arcs using ac3_loop.induct with
  | case1 domains original_arcs =>
    intro s hrel hbound hlen _ _
    rw [ac3_loop, ac3_store_loop]
    exact ⟨hrel, rfl⟩
  | case2 domains original_arcs arc rest h ih =>
    intro s hrel hbound hlen harcs horig
    rcases harcs arc (List.mem_cons_self arc rest) with ⟨ht, hhd⟩
    have hsim := sim_riv refs arc s domains hinj ht hhd hrel hbound hlen
    have hs2 : (remove_inconsistent_values s (reindex refs arc)).2 = true := by
      rw [hsim.1]; exact h
    rw [ac3_loop, dif_pos h, ac3_store_loop, dif_pos hs2]
    have hb2 : ∀ i, i < refs.length →
        refs.getD i 0 < (remove_inconsistent_values s (reindex refs arc)).1.length := by
      intro i hi
      rw [hsim.2.2]
      exact hbound i hi
    have hlen2 : refs.length = (remove_inconsistent_values domains arc).1.length := by
      unfold remove_inconsistent_values
      rw [remove_values_length]
      exact hlen
    have harcs2 : ∀ a ∈ rest ++ original_arcs.filter
        (fun original_arc => original_arc.HEAD == arc.TAIL),
        a.TAIL < refs.length ∧ a.HEAD < refs.length := by
      intro a2 ha2
      rcases List.mem_append.mp ha2 with h2 | h2
      · exact harcs a2 (List.mem_cons_of_mem arc h2)
      · exact horig a2 (List.mem_filter.mp h2).1
    have hfinal := ih (remove_inconsistent_values s (reindex refs arc)).1 hsim.2.1
      hb2 hlen2 harcs2 horig
    exact ⟨hfinal.1, by rw [hfinal.2, hsim.2.2]⟩
  | case3 domains original_arcs arc rest h ih =>
    intro s hrel hbound hlen harcs horig
    rcases harcs arc (List.mem_cons_self arc rest) with ⟨ht, hhd⟩
    have hsim := sim_riv refs arc s domains hinj ht hhd hrel hbound hlen
    have hs2 : ¬ (remove_inconsistent_values s (reindex refs arc)).2 = true := by
      rw [hsim.1]; exact h
    rw [ac3_loop, dif_neg h, ac3_store_loop, dif_neg hs2]
    have hb2 : ∀ i, i < refs.length →
        refs.getD i 0 < (remove_inconsistent_values s (reindex refs arc)).1.length := by
      intro i hi
      rw [hsim.2.2]
      exact hbound i hi
    have hlen2 : refs.length = (remove_inconsistent_values domains arc).1.length := by
      unfold remove_inconsistent_values
      rw [remove_values_length]
      exact hlen
    have harcs2 : ∀ a ∈ rest, a.TAIL < refs.length ∧ a.HEAD < refs.length :=
      fun a2 ha2 => harcs a2 (List.mem_cons_of_mem arc ha2)
    have hfinal := ih (remove_inconsistent_values s (reindex refs arc)).1 hsim.2.1
      hb2 hlen2 harcs2 horig
    exact ⟨hfinal.1, by rw [hfinal.2, hsim.2.2]⟩

theorem ac3_store_loop_frame (c : Nat) :
    ∀ (s : Store) (refs : List Nat) (arcs original_arcs : List Arc),
    (∀ i, i < refs.length → refs.getD i 0 ≠ c) →
    (∀ a ∈ arcs, a.TAIL < refs.length) →
    (∀ a ∈ original_arcs, a.TAIL < refs.length) →
    store_get (ac3_store_loop s refs arcs original_arcs) c = store_get s c := by
  intro s refs arcs original_arcs
  induction s, refs, arcs, original_arcs using ac3_store_loop.induct with
  | case1 s refs original_arcs =>
    intro _ _ _
    rw [ac3_store_loop]
  | case2 s refs original_arcs arc rest h ih =>
    intro hc harcs horig
    rw [ac3_store_loop, dif_pos h]
    have hstep : store_get (remove_inconsistent_values s (reindex refs arc)).1 c
        = store_get s c := by
      unfold remove_inconsistent_values store_get
      refine remove_values_getD_ne (reindex refs arc) c ?_ _ s false
      exact fun he => hc arc.TAIL (harcs arc (List.mem_cons_self arc rest)) he.symm
    rw [← hstep]
    refine ih hc ?_ horig
    intro a2 ha2
    rcases List.mem_append.mp ha2 with h2 | h2
    · exact harcs a2 (List.mem_cons_of_mem arc h2)
    · exact horig a2 (List.mem_filter.mp h2).1
  | case3 s refs original_arcs arc rest h ih =>
    intro hc harcs horig
    rw [ac3_store_loop, dif_neg h]
    have hstep : store_get (remove_inconsistent_values s (reindex refs arc)).1 c
        = store_get s c := by
      unfold remove_inconsistent_values store_get
      refine remove_values_getD_ne (reindex refs arc) c ?_ _ s false
      exact fun he => hc arc.TAIL (harcs arc (List.mem_cons_self arc rest)) he.symm
    rw [← hstep]
    refine ih hc ?_ horig
    exact fun a2 ha2 => harcs a2 (List.mem_cons_of_mem arc ha2)

theorem is_complete_store_eq (assignment : List Val) (refs : List Nat)
    (domains : List (List Val)) (cs : List DateConstraint)
    (hlen : refs.length = domains.length) :
    is_complete_store assignment refs cs = is_complete assignment domains cs := by
  unfold is_complete_store is_complete
  rw [hlen]

theorem sim_rb (s : Store) (refs : List Nat) :
    ∀ (assignment : List Val) (domains : List (List Val)) (cs : List DateConstraint),
    store_rel s refs domains →
    refs.length = domains.length →
    rb_store s refs assignment cs = recursive_backtracker assignment domains cs := by
  intro assignment domains cs
  induction assignment, domains, cs using recursive_backtracker.induct with
  | case1 assignment domains cs hic =>
    intro hrel hlen
    rw [rb_store, recursive_backtracker, if_pos hic,
      if_pos (by rw [is_complete_store_eq assignment refs domains cs hlen]; exact hic)]
  | case2 assignment domains cs hic hnone =>
    intro hrel hlen
    have hic2 : ¬ is_complete_store assignment refs cs = true := by
      rw [is_complete_store_eq assignment refs domains cs hlen]
      exact hic
    have hlenk : domains.length ≤ assignment.length := by
      by_contra hlt
      push_neg at hlt
      rw [List.getElem?_eq_getElem hlt] at hnone
      exact absurd hnone (by simp)
    have hrnone : refs[assignment.length]? = none :=
      List.getElem?_eq_none (by omega)
    rw [rb_store, recursive_backtracker, if_neg hic, if_neg hic2]
    split
    · split
      · rfl
      · rename_i dom2 hd2
        rw [hnone] at hd2
        exact absurd hd2 (by simp)
    · rename_i r hr
      rw [hrnone] at hr
      exact absurd hr (by simp)
  | case3 assignment domains cs hic dom hsome ih =>
    intro hrel hlen
    have hic2 : ¬ is_complete_store assignment refs cs = true := by
      rw [is_complete_store_eq assignment refs domains cs hlen]
      exact hic
    have hklt : assignment.length < domains.length := by
      rcases List.getElem?_eq_some.mp hsome with ⟨hh, _⟩
      exact hh
    have hrsome : refs[assignment.length]? = some (refs.getD assignment.length 0) := by
      rw [List.getElem?_eq_getElem (show assignment.length < refs.length by omega)]
      rw [List.getD_eq_getElem _ _ (show assignment.length < refs.length by omega)]
    rw [rb_store, recursive_backtracker, if_neg hic, if_neg hic2]
    split
    · rename_i hrn
      rw [hrsome] at hrn
      exact absurd hrn (by simp)
    · rename_i r hr
      split
      · rename_i hdn
        rw [hsome] at hdn
        exact absurd hdn (by simp)
      · rename_i dom2 hd2
        have hrr : r = refs.getD assignment.length 0 :=
          (getD_eq_of_getElem? refs 0 _ r hr).symm
        have hsg : store_get s r = dom2 := by
          rw [hrr]
          rw [hrel assignment.length (by omega)]
          exact getD_eq_of_getElem? domains [] _ dom2 hd2
        rw [hsg]
        have hinner : ∀ (cand : List Val) (acc : Except Unit (Option (List Val))),
            cand.foldl (fun result date =>
              match result with
              | Except.ok none =>
                if cs.all (fun constraint =>
                    constraint.is_satisfied_by_assignment (assignment ++ [date])) then
                  rb_store s refs (assignment ++ [date]) cs
                else Except.ok none
              | r2 => r2) acc
            = cand.foldl (fun result date =>
              match result with
              | Except.ok none =>
                if cs.all (fun constraint =>
                    constraint.is_satisfied_by_assignment (assignment ++ [date])) then
                  recursive_backtracker (assignment ++ [date]) domains cs
                else Except.ok none
              | r2 => r2) acc := by
          intro cand
          induction cand with
          | nil => intro acc; rfl
          | cons d rest ihc =>
            intro acc
            rw [List.foldl_cons, List.foldl_cons, ihc _]
            congr 1
            match acc with
            | Except.ok none =>
              show (if cs.all (fun constraint =>
                  constraint.is_satisfied_by_assignment (assignment ++ [d])) then
                    rb_store s refs (assignment ++ [d]) cs
                  else Except.ok none)
                = (if cs.all (fun constraint =>
                  constraint.is_satisfied_by_assignment (assignment ++ [d])) then
                    recursive_backtracker (assignment ++ [d]) domains cs
                  else Except.ok none)
              rw [ih d hrel hlen]
            | Except.ok (some x) => rfl
            | Except.error e => rfl
        exact hinner dom2 (Except.ok none)

theorem solve_store_spec (s0 : Store) (r0 : Nat) (n : Nat) (cs : List DateConstraint)
    (h0 : r0 < s0.length)
    (hwf : ∀ c ∈ cs, constraint_in_range n c = true) :
    store_get (solve_store s0 r0 n cs).1 r0 = store_get s0 r0
    ∧ ((solve_store s0 r0 n cs).2.1).Nodup
    ∧ r0 ∉ (solve_store s0 r0 n cs).2.1
    ∧ (∀ i, i < n → store_get (solve_store s0 r0 n cs).1
        (((solve_store s0 r0 n cs).2.1).getD i 0)
        = (arc_consistency (node_consistency
            (List.replicate n (store_get s0 r0)) cs) cs).getD i [])
    ∧ (solve_store s0 r0 n cs).2.2 = solve n (store_get s0 r0) cs := by
  have hreflen : ((List.range n).map (fun i => s0.length + i)).length = n := by
    rw [List.length_map, List.length_range]
  have hrefsget : ∀ i, i < n →
      ((List.range n).map (fun i => s0.length + i)).getD i 0 = s0.length + i := by
    intro i hi
    rw [List.getD_eq_getElem _ _ (by rw [hreflen]; omega)]
    rw [List.getElem_map, List.getElem_range]
  have hinj : ∀ i j, i < ((List.range n).map (fun i => s0.length + i)).length →
      j < ((List.range n).map (fun i => s0.length + i)).length → i ≠ j →
      ((List.range n).map (fun i => s0.length + i)).getD i 0
        ≠ ((List.range n).map (fun i => s0.length + i)).getD j 0 := by
    intro i j hi hj hij
    rw [hreflen] at hi hj
    rw [hrefsget i hi, hrefsget j hj]
    omega
  have hnodup : ((List.range n).map (fun i => s0.length + i)).Nodup :=
    List.Nodup.map (fun a b hab => by omega) (List.nodup_range n)
  have hr0notin : r0 ∉ (List.range n).map (fun i => s0.length + i) := by
    intro hmem
    rcases List.mem_map.mp hmem with ⟨i, hi, hieq⟩
    omega
  have hs1len : (s0 ++ List.replicate n (store_get s0 r0)).length = s0.length + n := by
    rw [List.length_append, List.length_replicate]
  have hrel1 : store_rel (s0 ++ List.replicate n (store_get s0 r0))
      ((List.range n).map (fun i => s0.length + i))
      (List.replicate n (store_get s0 r0)) := by
    intro i hi
    rw [hreflen] at hi
    unfold store_get
    rw [hrefsget i hi]
    rw [List.getD_append_right _ _ _ _ (by omega)]
    rw [Nat.add_sub_cancel_left]
  have hbound1 : ∀ i, i < ((List.range n).map (fun i => s0.length + i)).length →
      ((List.range n).map (fun i => s0.length + i)).getD i 0
        < (s0 ++ List.replicate n (store_get s0 r0)).length := by
    intro i hi
    rw [hreflen] at hi
    rw [hrefsget i hi, hs1len]
    omega
  have hlen1 : ((List.range n).map (fun i => s0.length + i)).length
      = (List.replicate n (store_get s0 r0)).length := by
    rw [hreflen, List.length_replicate]
  have hncstore := sim_nc ((List.range n).map (fun i => s0.length + i)) 0
    (s0 ++ List.replicate n (store_get s0 r0))
    (List.replicate n (store_get s0 r0))
    (cs.filter (fun c => c.arity == 1)) hnodup hbound1 hrel1 hlen1
  have hs2len : (node_consistency_store (s0 ++ List.replicate n (store_get s0 r0))
      ((List.range n).map (fun i => s0.length + i)) cs).length
      = (s0 ++ List.replicate n (store_get s0 r0)).length :=
    nc_store_loop_length _ 0 _ _
  have hs2rel : store_rel (node_consistency_store
      (s0 ++ List.replicate n (store_get s0 r0))
      ((List.range n).map (fun i => s0.length + i)) cs)
      ((List.range n).map (fun i => s0.length + i))
      (node_consistency (List.replicate n (store_get s0 r0)) cs) := by
    intro i hi
    exact hncstore i hi
  have hbound2 : ∀ i, i < ((List.range n).map (fun i => s0.length + i)).length →
      ((List.range n).map (fun i => s0.length + i)).getD i 0
        < (node_consistency_store (s0 ++ List.replicate n (store_get s0 r0))
            ((List.range n).map (fun i => s0.length + i)) cs).length := by
    intro i hi
    rw [hs2len]
    exact hbound1 i hi
  have hlen2 : ((List.range n).map (fun i => s0.length + i)).length
      = (node_consistency (List.replicate n (store_get s0 r0)) cs).length := by
    rw [length_node_consistency, List.length_replicate, hreflen]
  have harcsb : ∀ a ∈ binary_arcs cs,
      a.TAIL < ((List.range n).map (fun i => s0.length + i)).length
      ∧ a.HEAD < ((List.range n).map (fun i => s0.length + i)).length := by
    intro a ha
    have hb := binary_arcs_bound cs n hwf a ha
    rw [hreflen]
    exact hb
  have hac := sim_ac3 ((List.range n).map (fun i => s0.length + i)) hinj
    (node_consistency (List.replicate n (store_get s0 r0)) cs)
    (binary_arcs cs) (binary_arcs cs)
    (node_consistency_store (s0 ++ List.replicate n (store_get s0 r0))
      ((List.range n).map (fun i => s0.length + i)) cs)
    hs2rel hbound2 hlen2 harcsb harcsb
  have hcne : ∀ i, i < ((List.range n).map (fun i => s0.length + i)).length →
      ((List.range n).map (fun i => s0.length + i)).getD i 0 ≠ r0 := by
    intro i hi
    rw [hreflen] at hi
    rw [hrefsget i hi]
    omega
  have hframe3 : store_get (ac3_store_loop
      (node_consistency_store (s0 ++ List.replicate n (store_get s0 r0))
        ((List.range n).map (fun i => s0.length + i)) cs)
      ((List.range n).map (fun i => s0.length + i))
      (binary_arcs cs) (binary_arcs cs)) r0
      = store_get (node_consistency_store (s0 ++ List.replicate n (store_get s0 r0))
          ((List.range n).map (fun i => s0.length + i)) cs) r0 :=
    ac3_store_loop_frame r0 _ _ _ _ hcne
      (fun a ha => (harcsb a ha).1) (fun a ha => (harcsb a ha).1)
  have hframe2 : store_get (node_consistency_store
      (s0 ++ List.replicate n (store_get s0 r0))
      ((List.range n).map (fun i => s0.length + i)) cs) r0
      = store_get (s0 ++ List.replicate n (store_get s0 r0)) r0 :=
    nc_store_loop_frame _ 0 _ _ r0 hr0notin
  have hframe1 : store_get (s0 ++ List.replicate n (store_get s0 r0)) r0
      = store_get s0 r0 := by
    unfold store_get
    exact List.getD_append _ _ _ _ h0
  have hlen3 : ((List.range n).map (fun i => s0.length + i)).length
      = (arc_consistency (node_consistency
          (List.replicate n (store_get s0 r0)) cs) cs).length := by
    rw [length_arc_consistency, length_node_consistency, List.length_replicate, hreflen]
  have hres : rb_store (ac3_store_loop
      (node_consistency_store (s0 ++ List.replicate n (store_get s0 r0))
        ((List.range n).map (fun i => s0.length + i)) cs)
      ((List.range n).map (fun i => s0.length + i))
      (binary_arcs cs) (binary_arcs cs))
      ((List.range n).map (fun i => s0.length + i)) [] cs
      = recursive_backtracker []
          (arc_consistency (node_consistency
            (List.replicate n (store_get s0 r0)) cs) cs) cs :=
    sim_rb _ _ [] _ cs hac.1 hlen3
  refine ⟨?_, hnodup, hr0notin, ?_, ?_⟩
  · exact hframe3.trans (hframe2.trans hframe1)
  · intro i hi
    have := hac.1 i (by rw [hreflen]; omega)
    exact this
  · exact hres

-- Claims
-- ---------------------------------------------------------------------------

/-- C1: Soundness of solve: for every `n_meetings`, `date_range` and
constraint set, if `solve` returns an assignment (rather than the absence
value), that assignment has length exactly `n_meetings` and every
constraint's `is_satisfied_by_assignment` evaluates true on it. -/
theorem solve_sound (n_meetings : Nat) (date_range : List Val)
    (constraints : List DateConstraint) (a : List Val)
    (h : solve n_meetings date_range constraints = Except.ok (some a)) :
    a.length = n_meetings ∧
    ∀ c ∈ constraints, c.is_satisfied_by_assignment a = true :=
  solve_sound_aux n_meetings date_range constraints a h

theorem solve_sound_witness :
    ∃ a : List Val, a.length = 1 ∧
      ∀ c ∈ ([] : List DateConstraint), c.is_satisfied_by_assignment a = true := by
  obtain ⟨r, hr⟩ := solve_complete_aux 1 [10] [] [10]
    (by decide) (by decide) (by decide) (by decide)
  exact ⟨r, solve_sound 1 [10] [] r hr⟩

/-- C2: Completeness of solve: if some complete assignment of length
`n_meetings` drawn from `date_range` satisfies every constraint (whose
variable indices all refer to the `n_meetings` meetings, which is what the
`Constraint` interface requires of an `n`-meeting problem), then `solve`
returns some such assignment and never returns the absence value;
internally, `node_consistency` and `arc_consistency` never remove a value
of that assignment (`node_consistency_keep`, `ac3_loop_preserve`). -/
theorem solve_complete (n_meetings : Nat) (date_range : List Val)
    (constraints : List DateConstraint) (a : List Val)
    (hwf : ∀ c ∈ constraints, constraint_in_range n_meetings c = true)
    (hlen : a.length = n_meetings)
    (hsub : ∀ v ∈ a, v ∈ date_range)
    (hsat : ∀ c ∈ constraints, c.is_satisfied_by_assignment a = true) :
    ∃ r, solve n_meetings date_range constraints = Except.ok (some r) ∧
      r.length = n_meetings ∧
      ∀ c ∈ constraints, c.is_satisfied_by_assignment r = true := by
  obtain ⟨r, hr⟩ := solve_complete_aux n_meetings date_range constraints a
    hwf hlen hsub hsat
  obtain ⟨hl, hs⟩ := solve_sound_aux n_meetings date_range constraints r hr
  exact ⟨r, hr, hl, hs⟩

theorem solve_complete_witness :
    ∃ r, solve 2 [1, 2] [DateConstraint.binary 0 1 (fun x y => decide (x < y))]
        = Except.ok (some r) ∧
      r.length = 2 ∧
      ∀ c ∈ [DateConstraint.binary 0 1 (fun x y => decide (x < y))],
        c.is_satisfied_by_assignment r = true :=
  solve_complete 2 [1, 2] [DateConstraint.binary 0 1 (fun x y => decide (x < y))]
    [1, 2] (by decide) (by decide) (by decide) (by decide)

/-- C3: Arc-consistency postcondition: after `arc_consistency` returns,
for every arc built from the binary constraints (both the forward and the
reverse orientation are in `binary_arcs`) and every value `v` remaining in
the tail variable's domain, some value `w` of the head variable's domain
satisfies the arc's constraint on `(v, w)`; contrapositively, any value
without such a support has been removed. -/
theorem arc_consistency_post (domains : List (List Val))
    (constraints : List DateConstraint)
    (hnd : ∀ d ∈ domains, d.Nodup) :
    ∀ arc ∈ binary_arcs constraints,
    ∀ v ∈ (arc_consistency domains constraints).getD arc.TAIL [],
    ∃ w ∈ (arc_consistency domains constraints).getD arc.HEAD [],
      arc.CONSTRAINT.is_satisfied_by_values2 v w = true := by
  have hnd2 : ∀ j, (domains.getD j []).Nodup := by
    intro j
    by_cases hj : j < domains.length
    · exact hnd _ (getD_mem_self domains [] j hj)
    · rw [List.getD_eq_default _ _ (by omega)]
      exact List.nodup_nil
  intro arc harc
  exact ac3_loop_post domains (binary_arcs constraints) (binary_arcs constraints)
    hnd2 (fun oa hoa => Or.inl hoa) arc harc

theorem arc_consistency_post_witness :
    ∃ w ∈ (arc_consistency [[1, 2], [1, 2]]
        [DateConstraint.binary 0 1 (fun x y => decide (x < y))]).getD
          (Arc.mk (DateConstraint.binary 0 1 (fun x y => decide (x < y))) 0 1).HEAD [],
      (Arc.mk (DateConstraint.binary 0 1 (fun x y => decide (x < y)))
        0 1).CONSTRAINT.is_satisfied_by_values2 1 w = true := by
  have h1 := ac3_fuel_spec 15 [[1, 2], [1, 2]]
    (binary_arcs [DateConstraint.binary 0 1 (fun x y => decide (x < y))])
    (binary_arcs [DateConstraint.binary 0 1 (fun x y => decide (x < y))])
    (by decide)
  have h2 : ac3_fuel 15 [[1, 2], [1, 2]]
      (binary_arcs [DateConstraint.binary 0 1 (fun x y => decide (x < y))])
      (binary_arcs [DateConstraint.binary 0 1 (fun x y => decide (x < y))])
      = some [[1], [2]] := by decide
  have hval : arc_consistency [[1, 2], [1, 2]]
      [DateConstraint.binary 0 1 (fun x y => decide (x < y))] = [[1], [2]] :=
    Option.some.inj (h1.symm.trans h2)
  refine arc_consistency_post [[1, 2], [1, 2]]
    [DateConstraint.binary 0 1 (fun x y => decide (x < y))] (by decide)
    (Arc.mk (DateConstraint.binary 0 1 (fun x y => decide (x < y))) 0 1)
    (List.mem_cons_self _ _) 1 ?_
  rw [hval]
  decide

/-- C4: Node-consistency exact pruning: a value `v` present in
`domains[i]` before the call remains afterwards exactly when every unary
constraint with `L_VAL = i` accepts it; constraints with other `L_VAL`
and binary constraints play no part in the condition. -/
theorem node_consistency_exact (domains : List (List Val))
    (constraints : List DateConstraint) (i : Nat) (v : Val)
    (hnd : (domains.getD i []).Nodup)
    (hv : v ∈ domains.getD i []) :
    v ∈ (node_consistency domains constraints).getD i [] ↔
      ∀ c ∈ constraints, c.arity = 1 → c.L_VAL = i →
        c.is_satisfied_by_values1 v = true := by
  unfold node_consistency
  rw [nc_loop_getD]
  simp only [Nat.zero_add]
  rw [prune_domain_mem i v _ _ _ hnd]
  constructor
  · rintro ⟨_, hcond⟩
    have hff := hcond hv
    rw [fails_unary_eq_false_iff] at hff
    intro c hc h1 hl
    refine hff c ?_ hl
    exact List.mem_filter.mpr ⟨hc, by simp [h1]⟩
  · intro hok
    refine ⟨hv, fun _ => ?_⟩
    rw [fails_unary_eq_false_iff]
    intro uc hucmem hl
    rcases List.mem_filter.mp hucmem with ⟨hucs, harity⟩
    refine hok uc hucs ?_ hl
    simpa using harity

theorem node_consistency_exact_witness :
    1 ∈ (node_consistency [[1, 2]]
        [DateConstraint.unary 0 (fun v => decide (v = 2))]).getD 0 [] ↔
      ∀ c ∈ [DateConstraint.unary 0 (fun v => decide (v = 2))],
        c.arity = 1 → c.L_VAL = 0 → c.is_satisfied_by_values1 1 = true :=
  node_consistency_exact [[1, 2]] [DateConstraint.unary 0 (fun v => decide (v = 2))]
    0 1 (by decide) (by decide)

/-- C5: Termination of `arc_consistency`: the AC-3 worklist loop always
empties after finitely many iterations — the fuelled rendition of the
loop, given fuel `total_size * (number of arcs + 1) + worklist length + 1`,
completes (returns `some`) with the very result of `arc_consistency`;
the measure drops because a re-enqueue happens only on a strict shrink of
some finite domain and domains never grow. -/
theorem arc_consistency_terminates (domains : List (List Val))
    (constraints : List DateConstraint) :
    ∃ fuel, ac3_fuel fuel domains (binary_arcs constraints) (binary_arcs constraints)
      = some (arc_consistency domains constraints) :=
  ⟨_, ac3_fuel_spec _ domains _ _ (Nat.lt_succ_self _)⟩

theorem arc_consistency_terminates_witness :
    ∃ fuel, ac3_fuel fuel [[1, 2], [1, 2]]
        (binary_arcs [DateConstraint.binary 0 1 (fun x y => decide (x < y))])
        (binary_arcs [DateConstraint.binary 0 1 (fun x y => decide (x < y))])
      = some (arc_consistency [[1, 2], [1, 2]]
          [DateConstraint.binary 0 1 (fun x y => decide (x < y))]) :=
  arc_consistency_terminates [[1, 2], [1, 2]]
    [DateConstraint.binary 0 1 (fun x y => decide (x < y))]

/-- C6: Domain independence and caller frame, over the heap model: after
`solve` runs, the caller's `date_range` cell is unchanged (for
satisfiable and unsatisfiable inputs alike); the `n` domain references
are pairwise distinct fresh cells not aliasing the caller's; the cells
after pruning coincide with the pure per-copy pruning pipeline (so
pruning one variable's domain affects no other except through its own
rule); and the returned result equals the pure `solve`. -/
theorem solve_domain_independence (s0 : Store) (r0 : Nat) (n : Nat)
    (constraints : List DateConstraint)
    (h0 : r0 < s0.length)
    (hwf : ∀ c ∈ constraints, constraint_in_range n c = true) :
    store_get (solve_store s0 r0 n constraints).1 r0 = store_get s0 r0
    ∧ ((solve_store s0 r0 n constraints).2.1).Nodup
    ∧ r0 ∉ (solve_store s0 r0 n constraints).2.1
    ∧ (∀ i, i < n → store_get (solve_store s0 r0 n constraints).1
        (((solve_store s0 r0 n constraints).2.1).getD i 0)
        = (arc_consistency (node_consistency
            (List.replicate n (store_get s0 r0)) constraints) constraints).getD i [])
    ∧ (solve_store s0 r0 n constraints).2.2 = solve n (store_get s0 r0) constraints :=
  solve_store_spec s0 r0 n constraints h0 hwf

theorem solve_domain_independence_witness :
    store_get (solve_store [[7]] 0 1 []).1 0 = store_get [[7]] 0
    ∧ ((solve_store [[7]] 0 1 []).2.1).Nodup
    ∧ 0 ∉ (solve_store [[7]] 0 1 []).2.1
    ∧ (∀ i, i < 1 → store_get (solve_store [[7]] 0 1 []).1
        (((solve_store [[7]] 0 1 []).2.1).getD i 0)
        = (arc_consistency (node_consistency
            (List.replicate 1 (store_get [[7]] 0)) []) []).getD i [])
    ∧ (solve_store [[7]] 0 1 []).2.2 = solve 1 (store_get [[7]] 0) [] :=
  solve_domain_independence [[7]] 0 1 [] (by decide) (by decide)

/-- C7: Arc construction error: building an `Arc` from a constraint fails
(with an explicit raise, never a silent no-op) exactly when the
constraint is not binary; on a binary constraint the construction
succeeds with `TAIL = L_VAL` and `HEAD = R_VAL` and stores the
constraint itself. -/
theorem arc_construction_error (c : DateConstraint) :
    ((∃ e, Arc.ofConstraint c = Except.error e) ↔ c.arity ≠ 2)
    ∧ (∀ a, Arc.ofConstraint c = Except.ok a →
        a.TAIL = c.L_VAL ∧ c.R_VAL = some a.HEAD ∧ a.CONSTRAINT = c) := by
  cases c with
  | unary l sat =>
    refine ⟨⟨?_, ?_⟩, ?_⟩
    · intro _
      simp [DateConstraint.arity]
    · intro _
      exact ⟨_, rfl⟩
    · intro a ha
      exact absurd ha (by simp [Arc.ofConstraint, DateConstraint.R_VAL])
  | binary l r sat =>
    refine ⟨⟨?_, ?_⟩, ?_⟩
    · rintro ⟨e, he⟩
      exact absurd he (by simp [Arc.ofConstraint, DateConstraint.R_VAL])
    · intro h2
      exact absurd rfl h2
    · intro a ha
      have ha2 : Arc.mk (DateConstraint.binary l r sat) l r = a := Except.ok.inj ha
      rw [← ha2]
      exact ⟨rfl, rfl, rfl⟩

theorem arc_construction_error_witness :
    ((∃ e, Arc.ofConstraint (DateConstraint.unary 0 (fun _ => true))
        = Except.error e)
      ↔ (DateConstraint.unary 0 (fun _ => true)).arity ≠ 2)
    ∧ (∀ a, Arc.ofConstraint (DateConstraint.unary 0 (fun _ => true))
        = Except.ok a →
        a.TAIL = (DateConstraint.unary 0 (fun _ => true)).L_VAL
        ∧ (DateConstraint.unary 0 (fun _ => true)).R_VAL = some a.HEAD
        ∧ a.CONSTRAINT = DateConstraint.unary 0 (fun _ => true)) :=
  arc_construction_error (DateConstraint.unary 0 (fun _ => true))

/-- C8: Arc-consistency idempotence: on a domain set that is already arc
consistent for the constraint set (every arc of every binary constraint,
in both orientations, has all its tail values supported) — in particular
on the output of a prior run — `arc_consistency` removes no value and
returns the domains unchanged. -/
theorem arc_consistency_idempotent (domains : List (List Val))
    (constraints : List DateConstraint)
    (h : ∀ arc ∈ binary_arcs constraints, arc_supported domains arc) :
    arc_consistency domains constraints = domains :=
  ac3_loop_noop (binary_arcs constraints) domains (binary_arcs constraints) h

theorem arc_consistency_idempotent_witness :
    arc_consistency [[1], [2]] [DateConstraint.binary 0 1 (fun x y => decide (x < y))]
      = [[1], [2]] :=
  arc_consistency_idempotent [[1], [2]]
    [DateConstraint.binary 0 1 (fun x y => decide (x < y))] (by decide)

/-- C9: Monotonicity of filtering: for every call to `node_consistency`
or `arc_consistency`, each variable's resulting domain is a sublist of
that variable's domain at entry — no value is ever added, and pruning
down to the empty list is a legal outcome of the same total functions,
not an error. -/
theorem filtering_monotone (domains : List (List Val))
    (constraints : List DateConstraint) (j : Nat) :
    ((node_consistency domains constraints).getD j []).Sublist (domains.getD j [])
    ∧ ((arc_consistency domains constraints).getD j []).Sublist (domains.getD j []) := by
  constructor
  · unfold node_consistency
    rw [nc_loop_getD]
    exact prune_domain_sublist _ _ _ _
  · exact ac3_loop_getD_sublist j domains _ _

theorem filtering_monotone_witness :
    ((node_consistency [[1, 2]]
        [DateConstraint.unary 0 (fun v => decide (v = 1))]).getD 0 []).Sublist
      ([[1, 2]].getD 0 [])
    ∧ ((arc_consistency [[1, 2]]
        [DateConstraint.unary 0 (fun v => decide (v = 1))]).getD 0 []).Sublist
      ([[1, 2]].getD 0 []) :=
  filtering_monotone [[1, 2]] [DateConstraint.unary 0 (fun v => decide (v = 1))] 0

/-- C10: Index safety of the backtracker: in every call of
`recursive_backtracker` whose partial assignment satisfies all the
constraints and fits within the variable count — which covers every call
reachable from `solve`, whose initial call passes the trivially
consistent empty assignment — the `IndexError` branch (a full-length
assignment that violates some constraint reaching the candidate loop) is
unreachable, so `solve` never raises. -/
theorem backtracker_index_safe :
    (∀ (assignment : List Val) (domains : List (List Val))
      (constraints : List DateConstraint),
      (∀ c ∈ constraints, c.is_satisfied_by_assignment assignment = true) →
      assignment.length ≤ domains.length →
      recursive_backtracker assignment domains constraints ≠ Except.error ())
    ∧ ∀ (n_meetings : Nat) (date_range : List Val)
        (constraints : List DateConstraint),
        solve n_meetings date_range constraints ≠ Except.error () :=
  ⟨rb_no_error, solve_no_error_aux⟩

theorem backtracker_index_safe_witness :
    recursive_backtracker [] [[0]] [] ≠ Except.error () :=
  backtracker_index_safe.1 [] [[0]] [] (by decide) (by decide)

end CSP

